import Mathlib

/-!
Verification of the recursive file renamer (src/file-and-directory-rename.py).

The development shallowly embeds the program:
* names are Lean strings (lists of characters); Python's str.lower() is
  modelled character-wise on the ASCII range, which is the range the
  program's regular expression and trigger predicate operate on;
* filesystem paths are lists of name components, and the filesystem state
  is the list of existing paths (component-wise);
* os.rename is modelled in the collision-free regime: it succeeds when the
  source exists and the destination does not (moving the whole subtree), is
  a successful no-op when source and destination are the same existing path
  (POSIX behaviour), and fails otherwise; a failed rename is skipped by the
  executor exactly as the Python code catches OSError and continues;
* a Python exception that aborts a run (such as ValueError from max() on an
  empty sequence) is modelled by an Option-returning function yielding none.
-/

/-- Character-wise lower-casing on the ASCII range, modelling str.lower()
for the characters the program manipulates. -/
def lowerChar (c : Char) : Char :=
  if 65 ≤ c.toNat ∧ c.toNat ≤ 90 then Char.ofNat (c.toNat + 32) else c

/-- Membership in the character class [a-zA-Z0-9.] of the regular
expression in get_new_name (line 46 of the source). -/
def goodChar (c : Char) : Bool :=
  (97 ≤ c.toNat && c.toNat ≤ 122) || (65 ≤ c.toNat && c.toNat ≤ 90) ||
    (48 ≤ c.toNat && c.toNat ≤ 57) || c.toNat == 46

/-- Replacement of every occurrence of a character, modelling
str.replace(a, b) for single characters (line 45 of the source). -/
def replaceChar (a b : Char) (s : List Char) : List Char :=
  s.map fun c => if c = a then b else c

/-- Collapse of every maximal run of characters outside [a-zA-Z0-9.] into a
single hyphen, modelling re.sub applied at line 46 of the source.  The
Boolean flag records whether the previous character was part of such a run
(its hyphen has already been emitted). -/
def collapseAux : Bool → List Char → List Char
  | _, [] => []
  | prevBad, c :: cs =>
    if goodChar c then c :: collapseAux false cs
    else if prevBad then collapseAux true cs
    else '-' :: collapseAux true cs

/-- Collapse of maximal runs of characters outside the class into single
hyphens, starting outside any run. -/
def collapse (s : List Char) : List Char := collapseAux false s

/-- Split of a name into root and extension, modelling os.path.splitext:
the extension starts at the last dot, except that a name whose characters
before its last dot are all dots (such as hidden names) has no extension. -/
def splitext (s : List Char) : List Char × List Char :=
  if s.reverse.dropWhile (fun c => !(c == '.')) = [] then (s, [])
  else if (s.reverse.dropWhile (fun c => !(c == '.'))).tail.all (fun c => c == '.') then
    (s, [])
  else ((s.reverse.dropWhile (fun c => !(c == '.'))).tail.reverse,
    '.' :: (s.reverse.takeWhile (fun c => !(c == '.'))).reverse)

/-- Core of get_new_name (lines 39-47 of the source) on character lists:
split off the extension, replace spaces and underscores of the base with
hyphens, collapse runs of characters outside [a-zA-Z0-9.] into single
hyphens, reattach the extension and lower-case the result. -/
def getNewNameL (name : List Char) : List Char :=
  let p := splitext name
  let base := replaceChar '_' '-' (replaceChar ' ' '-' p.1)
  let base := collapse base
  (base ++ p.2).map lowerChar

/-- Core of should_rename (lines 32-37 of the source) on character lists:
a name is renamed when it contains a space, an underscore, or differs from
its lower-cased form. -/
def shouldRenameL (name : List Char) : Bool :=
  name.contains ' ' || name.contains '_' || !(name == name.map lowerChar)

/-- Function get_new_name of the source, on strings. -/
def get_new_name (name : String) : String := String.mk (getNewNameL name.data)

/-- Function should_rename of the source, on strings. -/
def should_rename (name : String) : Bool := shouldRenameL name.data

/-! Character-level facts about lower-casing and the character class. -/

theorem char_toNat_ofNat_valid {n : Nat} (h : n < 55296) :
    (Char.ofNat n).toNat = n := by
  have hv : Nat.isValidChar n := Or.inl h
  simp only [Char.ofNat, hv, dite_true, Char.ofNatAux, Char.toNat]
  simp [UInt32.toNat]

theorem char_eq_of_toNat_eq {c d : Char} (h : c.toNat = d.toNat) : c = d :=
  Char.eq_of_val_eq (UInt32.ext h)

theorem lowerChar_toNat (c : Char) :
    (lowerChar c).toNat =
      if 65 ≤ c.toNat ∧ c.toNat ≤ 90 then c.toNat + 32 else c.toNat := by
  unfold lowerChar
  by_cases h : 65 ≤ c.toNat ∧ c.toNat ≤ 90
  · simp only [h, if_true]
    exact char_toNat_ofNat_valid (by omega)
  · simp [h]

theorem goodChar_iff (c : Char) :
    goodChar c = true ↔
      (97 ≤ c.toNat ∧ c.toNat ≤ 122) ∨ (65 ≤ c.toNat ∧ c.toNat ≤ 90) ∨
        (48 ≤ c.toNat ∧ c.toNat ≤ 57) ∨ c.toNat = 46 := by
  simp [goodChar, and_assoc, or_assoc]

theorem goodChar_lowerChar (c : Char) : goodChar (lowerChar c) = goodChar c := by
  rw [Bool.eq_iff_iff, goodChar_iff, goodChar_iff, lowerChar_toNat]
  by_cases h : 65 ≤ c.toNat ∧ c.toNat ≤ 90
  · simp [h]
  · simp [h]

theorem lowerChar_of_not_upper {c : Char} (h : ¬ (65 ≤ c.toNat ∧ c.toNat ≤ 90)) :
    lowerChar c = c := by
  unfold lowerChar; simp [h]

theorem lowerChar_of_bad {c : Char} (h : goodChar c = false) : lowerChar c = c := by
  apply lowerChar_of_not_upper
  intro hc
  have : goodChar c = true := (goodChar_iff c).mpr (Or.inr (Or.inl hc))
  rw [this] at h; exact Bool.noConfusion h

theorem lowerChar_lowerChar (c : Char) : lowerChar (lowerChar c) = lowerChar c := by
  apply lowerChar_of_not_upper
  rw [lowerChar_toNat]
  by_cases h : 65 ≤ c.toNat ∧ c.toNat ≤ 90
  · simp [h]; omega
  · simp [h]

theorem lowerChar_eq_dot_iff (c : Char) : lowerChar c = '.' ↔ c = '.' := by
  constructor
  · intro h
    have h46 : (lowerChar c).toNat = 46 := by rw [h]; decide
    rw [lowerChar_toNat] at h46
    by_cases hc : 65 ≤ c.toNat ∧ c.toNat ≤ 90
    · simp [hc] at h46; omega
    · simp [hc] at h46
      exact char_eq_of_toNat_eq (by rw [h46]; decide)
  · intro h; rw [h]; decide

theorem goodChar_ne_space {c : Char} (h : goodChar c = true) : c ≠ ' ' := by
  intro hc; rw [hc] at h; exact absurd h (by decide)

theorem goodChar_ne_underscore {c : Char} (h : goodChar c = true) : c ≠ '_' := by
  intro hc; rw [hc] at h; exact absurd h (by decide)

/-! List-level facts about the run-collapsing pass. -/

theorem mem_collapseAux {c : Char} : ∀ (s : List Char) (b : Bool),
    c ∈ collapseAux b s → c = '-' ∨ c ∈ s
  | [], _, h => absurd h (List.not_mem_nil c)
  | d :: cs, b, h => by
    by_cases hd : goodChar d = true
    · simp only [collapseAux, hd, if_true, List.mem_cons] at h
      rcases h with h | h
      · exact Or.inr (h ▸ List.mem_cons_self d cs)
      · rcases mem_collapseAux cs false h with h1 | h1
        · exact Or.inl h1
        · exact Or.inr (List.mem_cons_of_mem d h1)
    · simp only [collapseAux, hd, if_false, Bool.not_eq_true] at h
      cases b with
      | true =>
        simp only [if_true] at h
        rcases mem_collapseAux cs true h with h1 | h1
        · exact Or.inl h1
        · exact Or.inr (List.mem_cons_of_mem d h1)
      | false =>
        simp only [Bool.false_eq_true, if_false, List.mem_cons] at h
        rcases h with h | h
        · exact Or.inl h
        · rcases mem_collapseAux cs true h with h1 | h1
          · exact Or.inl h1
          · exact Or.inr (List.mem_cons_of_mem d h1)

theorem good_or_dash_of_mem_collapseAux {c : Char} : ∀ (s : List Char) (b : Bool),
    c ∈ collapseAux b s → goodChar c = true ∨ c = '-'
  | [], _, h => absurd h (List.not_mem_nil c)
  | d :: cs, b, h => by
    by_cases hd : goodChar d = true
    · simp only [collapseAux, hd, if_true, List.mem_cons] at h
      rcases h with h | h
      · exact Or.inl (h ▸ hd)
      · exact good_or_dash_of_mem_collapseAux cs false h
    · simp only [collapseAux, hd, if_false, Bool.not_eq_true] at h
      cases b with
      | true => exact good_or_dash_of_mem_collapseAux cs true (by simpa using h)
      | false =>
        simp only [Bool.false_eq_true, if_false, List.mem_cons] at h
        rcases h with h | h
        · exact Or.inr h
        · exact good_or_dash_of_mem_collapseAux cs true h

theorem collapseAux_collapseAux : ∀ (s : List Char) (b : Bool),
    collapseAux b (collapseAux b s) = collapseAux b s
  | [], b => by cases b <;> rfl
  | d :: cs, b => by
    by_cases hd : goodChar d = true
    · simp only [collapseAux, hd, if_true]
      rw [collapseAux_collapseAux cs false]
    · cases b with
      | true =>
        simp only [collapseAux, hd, Bool.not_eq_true, if_false, if_true]
        exact collapseAux_collapseAux cs true
      | false =>
        simp only [collapseAux, hd, Bool.not_eq_true, if_false, Bool.false_eq_true]
        have hdash : goodChar '-' = false := by decide
        simp only [collapseAux, hdash, Bool.not_eq_true, if_false, if_true,
          Bool.false_eq_true]
        rw [collapseAux_collapseAux cs true]

theorem collapseAux_map_lowerChar : ∀ (s : List Char) (b : Bool),
    collapseAux b (s.map lowerChar) = (collapseAux b s).map lowerChar
  | [], b => by cases b <;> rfl
  | d :: cs, b => by
    by_cases hd : goodChar d = true
    · have hdl : goodChar (lowerChar d) = true := by rw [goodChar_lowerChar]; exact hd
      simp only [List.map_cons, collapseAux, hd, hdl, if_true]
      rw [collapseAux_map_lowerChar cs false]
    · have hd' : goodChar d = false := by simpa using hd
      have hdl : goodChar (lowerChar d) = false := by rw [goodChar_lowerChar]; exact hd'
      cases b with
      | true =>
        simp only [List.map_cons, collapseAux, hd', hdl, Bool.not_eq_true, if_false,
          if_true]
        exact collapseAux_map_lowerChar cs true
      | false =>
        simp only [List.map_cons, collapseAux, hd', hdl, Bool.not_eq_true, if_false,
          Bool.false_eq_true, List.map_cons]
        have : lowerChar '-' = '-' := by decide
        rw [collapseAux_map_lowerChar cs true, this]

theorem collapse_map_lowerChar (s : List Char) :
    collapse (s.map lowerChar) = (collapse s).map lowerChar :=
  collapseAux_map_lowerChar s false

theorem collapse_collapse (s : List Char) : collapse (collapse s) = collapse s :=
  collapseAux_collapseAux s false

theorem collapse_lower_collapse (s : List Char) :
    collapse ((collapse s).map lowerChar) = (collapse s).map lowerChar := by
  rw [← collapse_map_lowerChar, collapse_collapse, collapse_map_lowerChar]

/-! Facts about the replacement pass and about dots. -/

theorem replaceChar_of_not_mem {a b : Char} {s : List Char} (h : a ∉ s) :
    replaceChar a b s = s := by
  unfold replaceChar
  induction s with
  | nil => rfl
  | cons c cs ih =>
    have hca : ¬ c = a := fun hc => h (hc ▸ List.mem_cons_self c cs)
    simp only [List.map_cons, hca, if_false]
    rw [ih (fun hm => h (List.mem_cons_of_mem c hm))]

theorem mem_replaceChar {a b c : Char} {s : List Char} (h : c ∈ replaceChar a b s) :
    c = b ∨ c ∈ s := by
  unfold replaceChar at h
  rcases List.mem_map.mp h with ⟨d, hd, hdc⟩
  by_cases hda : d = a
  · simp only [hda, if_true] at hdc; exact Or.inl hdc.symm
  · simp only [hda, if_false] at hdc; exact Or.inr (hdc ▸ hd)

theorem mem_of_dot_mem_replaceChar {a b : Char} {s : List Char} (hb : b ≠ '.')
    (h : '.' ∈ replaceChar a b s) : '.' ∈ s := by
  rcases mem_replaceChar h with h1 | h1
  · exact absurd h1.symm hb
  · exact h1

theorem dot_not_mem_collapse_lower {s : List Char} (h : '.' ∉ s) :
    '.' ∉ (collapse (replaceChar '_' '-' (replaceChar ' ' '-' s))).map lowerChar := by
  intro hmem
  rcases List.mem_map.mp hmem with ⟨d, hd, hdl⟩
  have hd' : d = '.' := (lowerChar_eq_dot_iff d).mp hdl
  subst hd'
  rcases mem_collapseAux _ false hd with h1 | h1
  · exact absurd h1 (by decide)
  · exact h (mem_of_dot_mem_replaceChar (by decide)
      (mem_of_dot_mem_replaceChar (by decide) h1))

theorem mem_collapseAux_of_good {c : Char} (hc : goodChar c = true) :
    ∀ (s : List Char) (b : Bool), c ∈ s → c ∈ collapseAux b s
  | [], _, h => absurd h (List.not_mem_nil c)
  | d :: cs, b, h => by
    by_cases hd : goodChar d = true
    · simp only [collapseAux, hd, if_true, List.mem_cons]
      rcases List.mem_cons.mp h with h1 | h1
      · exact Or.inl h1
      · exact Or.inr (mem_collapseAux_of_good hc cs false h1)
    · have hd' : goodChar d = false := by simpa using hd
      have hcd : c ≠ d := fun he => by rw [he, hd'] at hc; exact Bool.noConfusion hc
      have h1 : c ∈ cs := by
        rcases List.mem_cons.mp h with h2 | h2
        · exact absurd h2 hcd
        · exact h2
      cases b with
      | true =>
        simp only [collapseAux, hd', Bool.not_eq_true, if_false, if_true]
        exact mem_collapseAux_of_good hc cs true h1
      | false =>
        simp only [collapseAux, hd', Bool.not_eq_true, if_false, Bool.false_eq_true,
          List.mem_cons]
        exact Or.inr (mem_collapseAux_of_good hc cs true h1)

theorem dash_mem_collapse {s : List Char} (h : ∃ c ∈ s, goodChar c = false) :
    '-' ∈ collapse s := by
  unfold collapse
  induction s with
  | nil => rcases h with ⟨c, hc, _⟩; exact absurd hc (List.not_mem_nil c)
  | cons d cs ih =>
    by_cases hd : goodChar d = true
    · simp only [collapseAux, hd, if_true, List.mem_cons]
      rcases h with ⟨c, hc, hcb⟩
      rcases List.mem_cons.mp hc with h1 | h1
      · rw [h1, hd] at hcb; exact Bool.noConfusion hcb
      · exact Or.inr (ih ⟨c, h1, hcb⟩)
    · have hd' : goodChar d = false := by simpa using hd
      simp only [collapseAux, hd', Bool.not_eq_true, if_false, Bool.false_eq_true]
      exact List.mem_cons_self '-' _

theorem exists_nondot_mem_collapse {s : List Char} (h : ∃ c ∈ s, ¬ c = '.') :
    ∃ c ∈ collapse s, ¬ c = '.' := by
  rcases h with ⟨c, hc, hcd⟩
  by_cases hg : goodChar c = true
  · exact ⟨c, mem_collapseAux_of_good hg s false hc, hcd⟩
  · exact ⟨'-', dash_mem_collapse ⟨c, hc, by simpa using hg⟩, by decide⟩

/-! Facts about the extension split. -/

theorem takeWhile_all_append {α : Type} (p : α → Bool) :
    ∀ (l1 : List α) (x : α) (l2 : List α), (∀ a ∈ l1, p a = true) → p x = false →
      (l1 ++ x :: l2).takeWhile p = l1 ∧ (l1 ++ x :: l2).dropWhile p = x :: l2
  | [], x, l2, _, hx => by
    simp [List.takeWhile_cons, List.dropWhile_cons, hx]
  | a :: l1, x, l2, h1, hx => by
    have ha : p a = true := h1 a (List.mem_cons_self a l1)
    have ih := takeWhile_all_append p l1 x l2
      (fun b hb => h1 b (List.mem_cons_of_mem a hb)) hx
    simp only [List.cons_append, List.takeWhile_cons, List.dropWhile_cons, ha, if_true]
    exact ⟨by rw [ih.1], ih.2⟩

theorem dropWhile_eq_cons_head {α : Type} (p : α → Bool) :
    ∀ (l : List α) (x : α) (xs : List α), l.dropWhile p = x :: xs → p x = false
  | [], x, xs, h => List.noConfusion h
  | a :: l, x, xs, h => by
    by_cases ha : p a = true
    · simp only [List.dropWhile_cons, ha, if_true] at h
      exact dropWhile_eq_cons_head p l x xs h
    · have ha' : p a = false := by simpa using ha
      simp only [List.dropWhile_cons, ha', Bool.false_eq_true, if_false] at h
      cases h; exact ha'

theorem splitext_of_no_dot {s : List Char} (h : '.' ∉ s) : splitext s = (s, []) := by
  have hall : s.reverse.dropWhile (fun c => !(c == '.')) = [] := by
    rw [List.dropWhile_eq_nil_iff]
    intro c hc
    have : ¬ c = '.' := fun he => h (he ▸ List.mem_reverse.mp hc)
    simpa using this
  simp [splitext, hall]

theorem splitext_dots_prefix {m : Nat} {t : List Char} (hm : 1 ≤ m) (ht : '.' ∉ t) :
    splitext (List.replicate m '.' ++ t) = (List.replicate m '.' ++ t, []) := by
  have hrev : (List.replicate m '.' ++ t).reverse =
      t.reverse ++ '.' :: List.replicate (m - 1) '.' := by
    rw [List.reverse_append, List.reverse_replicate]
    congr 1
    cases m with
    | zero => omega
    | succ k => simp [List.replicate_succ]
  have hta : ∀ c ∈ t.reverse, (!(c == '.')) = true := by
    intro c hc
    have : ¬ c = '.' := fun he => ht (he ▸ List.mem_reverse.mp hc)
    simpa using this
  have hdot : (!(('.' : Char) == '.')) = false := by decide
  have hsp := takeWhile_all_append (fun c => !(c == '.')) t.reverse '.'
    (List.replicate (m - 1) '.') hta hdot
  unfold splitext
  rw [hrev, hsp.2]
  have hall : (List.replicate (m - 1) '.').all (fun c => c == '.') = true := by
    rw [List.all_eq_true]
    intro c hc
    have := (List.mem_replicate.mp hc).2
    simpa using this
  rw [if_neg (List.cons_ne_nil '.' (List.replicate (m - 1) '.')), List.tail_cons,
    if_pos hall]

theorem splitext_split {B after : List Char} (hafter : ∀ c ∈ after, ¬ c = '.')
    (hB : ∃ c ∈ B, ¬ c = '.') :
    splitext (B ++ '.' :: after) = (B, '.' :: after) := by
  have hrev : (B ++ '.' :: after).reverse = after.reverse ++ '.' :: B.reverse := by
    rw [List.reverse_append, List.reverse_cons, List.append_assoc]
    rfl
  have hta : ∀ c ∈ after.reverse, (!(c == '.')) = true := by
    intro c hc
    simpa using hafter c (List.mem_reverse.mp hc)
  have hdot : (!(('.' : Char) == '.')) = false := by decide
  have hsp := takeWhile_all_append (fun c => !(c == '.')) after.reverse '.' B.reverse
    hta hdot
  unfold splitext
  rw [hrev, hsp.2]
  have hnall : B.reverse.all (fun c => c == '.') = false := by
    rcases hB with ⟨c, hc, hcd⟩
    rw [Bool.eq_false_iff]
    intro hall
    have := List.all_eq_true.mp hall c (List.mem_reverse.mpr hc)
    exact hcd (by simpa using this)
  rw [if_neg (List.cons_ne_nil '.' B.reverse), List.tail_cons,
    if_neg (by rw [hnall]; exact Bool.noConfusion), hsp.1, List.reverse_reverse,
    List.reverse_reverse]

/-! Fixed-point facts used for idempotence of the normalizer. -/

theorem collapse_replicate_dot : ∀ (m : Nat) (X : List Char),
    collapse (List.replicate m '.' ++ X) = List.replicate m '.' ++ collapse X
  | 0, X => by simp
  | m + 1, X => by
    have hdot : goodChar '.' = true := by decide
    simp only [List.replicate_succ, List.cons_append]
    show collapseAux false ('.' :: (List.replicate m '.' ++ X)) = _
    simp only [collapseAux, hdot, if_true]
    exact congrArg (List.cons '.') (collapse_replicate_dot m X)

theorem replaceChar_append (a b : Char) (l1 l2 : List Char) :
    replaceChar a b (l1 ++ l2) = replaceChar a b l1 ++ replaceChar a b l2 :=
  List.map_append _ l1 l2

theorem replaceChar_replicate_dot {a b : Char} (h : ¬ ('.' : Char) = a) (m : Nat) :
    replaceChar a b (List.replicate m '.') = List.replicate m '.' := by
  unfold replaceChar
  rw [List.map_replicate, if_neg h]

theorem map_lower_replicate_dot (m : Nat) :
    (List.replicate m '.').map lowerChar = List.replicate m '.' := by
  rw [List.map_replicate]
  congr 1

theorem map_lower_idem (l : List Char) :
    (l.map lowerChar).map lowerChar = l.map lowerChar := by
  rw [List.map_map]
  exact List.map_congr_left fun a _ => lowerChar_lowerChar a

theorem space_not_mem_lowerCollapse (Y : List Char) :
    ' ' ∉ (collapse Y).map lowerChar := by
  intro h
  rcases List.mem_map.mp h with ⟨d, hd, hld⟩
  rcases good_or_dash_of_mem_collapseAux Y false hd with hg | hg
  · have h1 : goodChar (lowerChar d) = true := by rw [goodChar_lowerChar]; exact hg
    rw [hld] at h1
    exact absurd h1 (by decide)
  · rw [hg] at hld
    exact absurd hld (by decide)

theorem underscore_not_mem_lowerCollapse (Y : List Char) :
    '_' ∉ (collapse Y).map lowerChar := by
  intro h
  rcases List.mem_map.mp h with ⟨d, hd, hld⟩
  rcases good_or_dash_of_mem_collapseAux Y false hd with hg | hg
  · have h1 : goodChar (lowerChar d) = true := by rw [goodChar_lowerChar]; exact hg
    rw [hld] at h1
    exact absurd h1 (by decide)
  · rw [hg] at hld
    exact absurd hld (by decide)

theorem nondot_mem_replaceChar {a b : Char} (hb : ¬ b = '.') {s : List Char}
    (h : ∃ c ∈ s, ¬ c = '.') : ∃ c ∈ replaceChar a b s, ¬ c = '.' := by
  rcases h with ⟨c, hc, hcd⟩
  unfold replaceChar
  by_cases hca : c = a
  · exact ⟨b, List.mem_map.mpr ⟨c, hc, by simp [hca]⟩, hb⟩
  · exact ⟨c, List.mem_map.mpr ⟨c, hc, by simp [hca]⟩, hcd⟩

theorem nondot_mem_map_lower {s : List Char} (h : ∃ c ∈ s, ¬ c = '.') :
    ∃ c ∈ s.map lowerChar, ¬ c = '.' := by
  rcases h with ⟨c, hc, hcd⟩
  refine ⟨lowerChar c, List.mem_map.mpr ⟨c, hc, rfl⟩, ?_⟩
  intro hl
  exact hcd ((lowerChar_eq_dot_iff c).mp hl)

theorem nodot_map_lower {s : List Char} (h : '.' ∉ s) : '.' ∉ s.map lowerChar := by
  intro hm
  rcases List.mem_map.mp hm with ⟨d, hd, hld⟩
  exact h (((lowerChar_eq_dot_iff d).mp hld) ▸ hd)

/-! Idempotence of the normalizer. -/

theorem getNewNameL_no_ext {s : List Char} (hsp : splitext s = (s, [])) :
    getNewNameL s =
      (collapse (replaceChar '_' '-' (replaceChar ' ' '-' s))).map lowerChar := by
  simp only [getNewNameL, hsp, List.append_nil]

theorem getNewNameL_dots_form (m : Nat) (Y : List Char) (hm : 1 ≤ m)
    (hY : '.' ∉ (collapse Y).map lowerChar) :
    getNewNameL (List.replicate m '.' ++ (collapse Y).map lowerChar) =
      List.replicate m '.' ++ (collapse Y).map lowerChar := by
  have hsp : splitext (List.replicate m '.' ++ (collapse Y).map lowerChar) =
      (List.replicate m '.' ++ (collapse Y).map lowerChar, []) :=
    splitext_dots_prefix hm hY
  rw [getNewNameL_no_ext hsp]
  have hs1 : replaceChar ' ' '-' (List.replicate m '.' ++ (collapse Y).map lowerChar) =
      List.replicate m '.' ++ (collapse Y).map lowerChar := by
    rw [replaceChar_append, replaceChar_replicate_dot (by decide),
      replaceChar_of_not_mem (space_not_mem_lowerCollapse Y)]
  have hs2 : replaceChar '_' '-' (List.replicate m '.' ++ (collapse Y).map lowerChar) =
      List.replicate m '.' ++ (collapse Y).map lowerChar := by
    rw [replaceChar_append, replaceChar_replicate_dot (by decide),
      replaceChar_of_not_mem (underscore_not_mem_lowerCollapse Y)]
  rw [hs1, hs2, collapse_replicate_dot, collapse_lower_collapse, List.map_append,
    map_lower_replicate_dot, map_lower_idem]

theorem getNewNameL_lower_collapse (Y : List Char)
    (hY : '.' ∉ (collapse Y).map lowerChar) :
    getNewNameL ((collapse Y).map lowerChar) = (collapse Y).map lowerChar := by
  rw [getNewNameL_no_ext (splitext_of_no_dot hY),
    replaceChar_of_not_mem (space_not_mem_lowerCollapse Y),
    replaceChar_of_not_mem (underscore_not_mem_lowerCollapse Y),
    collapse_lower_collapse, map_lower_idem]

theorem getNewNameL_idem (s : List Char) :
    getNewNameL (getNewNameL s) = getNewNameL s := by
  cases hdw : s.reverse.dropWhile (fun c => !(c == '.')) with
  | nil =>
    have hnd : '.' ∉ s := by
      intro hm
      have h1 := List.dropWhile_eq_nil_iff.mp hdw '.' (List.mem_reverse.mpr hm)
      simp at h1
    rw [getNewNameL_no_ext (splitext_of_no_dot hnd)]
    exact getNewNameL_lower_collapse _ (dot_not_mem_collapse_lower hnd)
  | cons x rb =>
    have hx : x = '.' := by
      have h1 := dropWhile_eq_cons_head (fun c => !(c == '.')) s.reverse x rb hdw
      simpa using h1
    subst hx
    have hs_eq0 : s =
        rb.reverse ++ '.' :: (s.reverse.takeWhile (fun c => !(c == '.'))).reverse := by
      have h0 : s.reverse.takeWhile (fun c => !(c == '.')) ++ '.' :: rb = s.reverse := by
        rw [← hdw]
        exact List.takeWhile_append_dropWhile _ _
      calc s = s.reverse.reverse := (List.reverse_reverse s).symm
        _ = (s.reverse.takeWhile (fun c => !(c == '.')) ++ '.' :: rb).reverse := by
              rw [h0]
        _ = ('.' :: rb).reverse ++
              (s.reverse.takeWhile (fun c => !(c == '.'))).reverse := by
              rw [List.reverse_append]
        _ = rb.reverse ++ '.' :: (s.reverse.takeWhile (fun c => !(c == '.'))).reverse := by
              rw [List.reverse_cons, List.append_assoc]
              rfl
    have hta_nodot0 : '.' ∉ (s.reverse.takeWhile (fun c => !(c == '.'))).reverse := by
      intro hm
      have h1 := List.mem_takeWhile_imp (List.mem_reverse.mp hm)
      simp at h1
    obtain ⟨ta, hta_nodot, hs_eq⟩ :
        ∃ t : List Char, '.' ∉ t ∧ s = rb.reverse ++ '.' :: t :=
      ⟨_, hta_nodot0, hs_eq0⟩
    clear hta_nodot0 hs_eq0 hdw
    subst hs_eq
    by_cases hall : rb.all (fun c => c == '.') = true
    · have hrb : rb.reverse = List.replicate rb.length '.' := by
        have hmem : ∀ b ∈ rb.reverse, b = '.' := by
          intro b hb
          have h1 := List.all_eq_true.mp hall b (List.mem_reverse.mp hb)
          simpa using h1
        have h2 := List.eq_replicate_of_mem hmem
        rwa [List.length_reverse] at h2
      have hs3 : rb.reverse ++ '.' :: ta = List.replicate (rb.length + 1) '.' ++ ta := by
        rw [hrb, List.replicate_succ', List.append_assoc]
        rfl
      rw [hs3]
      have hm1 : 1 ≤ rb.length + 1 := Nat.le_add_left 1 rb.length
      have hsp : splitext (List.replicate (rb.length + 1) '.' ++ ta) =
          (List.replicate (rb.length + 1) '.' ++ ta, []) :=
        splitext_dots_prefix hm1 hta_nodot
      rw [getNewNameL_no_ext hsp]
      have hN : (collapse (replaceChar '_' '-' (replaceChar ' ' '-'
          (List.replicate (rb.length + 1) '.' ++ ta)))).map lowerChar =
          List.replicate (rb.length + 1) '.' ++
            (collapse (replaceChar '_' '-' (replaceChar ' ' '-' ta))).map lowerChar := by
        rw [replaceChar_append, replaceChar_replicate_dot (by decide),
          replaceChar_append, replaceChar_replicate_dot (by decide),
          collapse_replicate_dot, List.map_append, map_lower_replicate_dot]
      rw [hN]
      exact getNewNameL_dots_form (rb.length + 1) _ hm1
        (dot_not_mem_collapse_lower hta_nodot)
    · have hBnd : ∃ c ∈ rb.reverse, ¬ c = '.' := by
        have h1 : ¬ ∀ c ∈ rb, (fun c => c == '.') c = true := fun hc =>
          hall (List.all_eq_true.mpr hc)
        push_neg at h1
        rcases h1 with ⟨c, hc, hcd⟩
        exact ⟨c, List.mem_reverse.mpr hc, by simpa using hcd⟩
      have hand : ∀ c ∈ ta, ¬ c = '.' := fun c hc he => hta_nodot (he ▸ hc)
      have hsp : splitext (rb.reverse ++ '.' :: ta) = (rb.reverse, '.' :: ta) :=
        splitext_split hand hBnd
      have hdotlow : lowerChar '.' = '.' := by decide
      have h1 : getNewNameL (rb.reverse ++ '.' :: ta) =
          (collapse (replaceChar '_' '-' (replaceChar ' ' '-' rb.reverse))).map
              lowerChar ++ '.' :: ta.map lowerChar := by
        simp only [getNewNameL, hsp, List.map_append, List.map_cons]
        rw [hdotlow]
      rw [h1]
      have hA1 : ∀ c ∈ ta.map lowerChar, ¬ c = '.' := by
        intro c hc he
        exact nodot_map_lower hta_nodot (he ▸ hc)
      have hB1 : ∃ c ∈ (collapse (replaceChar '_' '-'
          (replaceChar ' ' '-' rb.reverse))).map lowerChar, ¬ c = '.' :=
        nondot_mem_map_lower (exists_nondot_mem_collapse
          (nondot_mem_replaceChar (by decide)
            (nondot_mem_replaceChar (by decide) hBnd)))
      have hsp1 := splitext_split hA1 hB1
      simp only [getNewNameL, hsp1]
      rw [replaceChar_of_not_mem
          (space_not_mem_lowerCollapse (replaceChar '_' '-'
            (replaceChar ' ' '-' rb.reverse))),
        replaceChar_of_not_mem
          (underscore_not_mem_lowerCollapse (replaceChar '_' '-'
            (replaceChar ' ' '-' rb.reverse))),
        collapse_lower_collapse, List.map_append, map_lower_idem, List.map_cons,
        map_lower_idem, hdotlow]

/-- C6: the name normalizer is idempotent: for every string x,
normalize(normalize(x)) equals normalize(x), where normalize is the
function get_new_name of the source. -/
theorem C6_normalize_idempotent (x : String) :
    get_new_name (get_new_name x) = get_new_name x := by
  unfold get_new_name
  exact congrArg String.mk (getNewNameL_idem x.data)

/-! Fixed points of the normalizer and the trigger predicate (claim C1). -/

/-- Reconstruction property of the extension split: the root and the
extension concatenate back to the original name. -/
theorem splitext_fst_append_snd (s : List Char) :
    (splitext s).1 ++ (splitext s).2 = s := by
  cases hdw : s.reverse.dropWhile (fun c => !(c == '.')) with
  | nil => simp [splitext, hdw]
  | cons x rb =>
    have hx : x = '.' := by
      have h1 := dropWhile_eq_cons_head (fun c => !(c == '.')) s.reverse x rb hdw
      simpa using h1
    subst hx
    have hs_eq0 : s =
        rb.reverse ++ '.' :: (s.reverse.takeWhile (fun c => !(c == '.'))).reverse := by
      have h0 : s.reverse.takeWhile (fun c => !(c == '.')) ++ '.' :: rb = s.reverse := by
        rw [← hdw]
        exact List.takeWhile_append_dropWhile _ _
      calc s = s.reverse.reverse := (List.reverse_reverse s).symm
        _ = (s.reverse.takeWhile (fun c => !(c == '.')) ++ '.' :: rb).reverse := by
              rw [h0]
        _ = ('.' :: rb).reverse ++
              (s.reverse.takeWhile (fun c => !(c == '.'))).reverse := by
              rw [List.reverse_append]
        _ = rb.reverse ++ '.' :: (s.reverse.takeWhile (fun c => !(c == '.'))).reverse := by
              rw [List.reverse_cons, List.append_assoc]
              rfl
    by_cases hall : rb.all (fun c => c == '.') = true
    · simp [splitext, hdw, List.tail_cons, hall]
    · simp only [splitext, hdw, List.tail_cons, hall, if_neg, if_false,
        List.cons_ne_nil, ite_false, Bool.false_eq_true]
      exact hs_eq0.symm

/-- Shape of a base in which the collapsing pass finds nothing to do: every
character outside the class [a-zA-Z0-9.] is a hyphen immediately followed
by a character of the class (or at the end of the base). -/
def tame : List Char → Bool
  | [] => true
  | [c] => goodChar c || c == '-'
  | c :: d :: rest => (goodChar c || (c == '-' && goodChar d)) && tame (d :: rest)

/-- Value of goodChar on the head, true for the empty list. -/
def headGood : List Char → Bool
  | [] => true
  | c :: _ => goodChar c

theorem collapseAux_cons (b : Bool) (c : Char) (cs : List Char) :
    collapseAux b (c :: cs) =
      if goodChar c then c :: collapseAux false cs
      else if b then collapseAux true cs else '-' :: collapseAux true cs := rfl

theorem tame_collapse : ∀ s : List Char, tame s = true →
    collapseAux false s = s ∧ (headGood s = true → collapseAux true s = s)
  | [], _ => ⟨rfl, fun _ => rfl⟩
  | [c], h => by
    have h' : goodChar c = true ∨ c = '-' := by simpa [tame] using h
    rcases h' with hg | hg
    · constructor
      · rw [collapseAux_cons, if_pos hg]; rfl
      · intro _; rw [collapseAux_cons, if_pos hg]; rfl
    · subst hg
      have hbad : goodChar '-' = false := by decide
      constructor
      · rw [collapseAux_cons, if_neg (by rw [hbad]; exact Bool.noConfusion),
          if_neg (by exact Bool.noConfusion)]
        rfl
      · intro hh
        rw [headGood, hbad] at hh
        exact Bool.noConfusion hh
  | c :: d :: rest, h => by
    have h' : (goodChar c = true ∨ (c = '-' ∧ goodChar d = true)) ∧
        tame (d :: rest) = true := by simpa [tame] using h
    obtain ⟨hcd, htail⟩ := h'
    have ih := tame_collapse (d :: rest) htail
    rcases hcd with hg | hg
    · constructor
      · rw [collapseAux_cons, if_pos hg, ih.1]
      · intro _
        rw [collapseAux_cons, if_pos hg, ih.1]
    · obtain ⟨hc, hd⟩ := hg
      subst hc
      have hbad : goodChar '-' = false := by decide
      have hdg : headGood (d :: rest) = true := hd
      constructor
      · rw [collapseAux_cons, if_neg (by rw [hbad]; exact Bool.noConfusion),
          if_neg (by exact Bool.noConfusion), ih.2 hdg]
      · intro hh
        rw [headGood, hbad] at hh
        exact Bool.noConfusion hh

theorem getNewNameL_eq_self {l : List Char} (hsp : ' ' ∉ l) (hun : '_' ∉ l)
    (hlow : l.map lowerChar = l) (htame : tame (splitext l).1 = true) :
    getNewNameL l = l := by
  have hbsub : ∀ c ∈ (splitext l).1, c ∈ l := by
    intro c hc
    rw [← splitext_fst_append_snd l]
    exact List.mem_append_left _ hc
  have h1 : replaceChar ' ' '-' (splitext l).1 = (splitext l).1 :=
    replaceChar_of_not_mem (fun hm => hsp (hbsub _ hm))
  have h2 : replaceChar '_' '-' (splitext l).1 = (splitext l).1 :=
    replaceChar_of_not_mem (fun hm => hun (hbsub _ hm))
  have h3 : collapse (splitext l).1 = (splitext l).1 := (tame_collapse _ htame).1
  simp only [getNewNameL, h1, h2]
  rw [h3, splitext_fst_append_snd, hlow]

/-- C1 is false as stated: the name "a--b" contains no space, no underscore
and no uppercase character, so should_rename is false, yet get_new_name
collapses the run of two hyphens (characters outside [a-zA-Z0-9.]) into a
single one and returns "a-b", a different name. -/
theorem C1_counterexample :
    should_rename "a--b" = false ∧ get_new_name "a--b" ≠ "a--b" := by decide

/-- C1 (amended): if should_rename(name) is false and additionally the base
portion of the name contains no run of two or more characters outside
[a-zA-Z0-9.] and no such character other than a hyphen (predicate tame),
then normalize(name) equals name. -/
theorem C1_amended (name : String) (h1 : should_rename name = false)
    (h2 : tame (splitext name.data).1 = true) :
    get_new_name name = name := by
  rw [should_rename, shouldRenameL, Bool.or_eq_false_iff, Bool.or_eq_false_iff] at h1
  obtain ⟨⟨hc1, hc2⟩, hc3⟩ := h1
  have hsp : ' ' ∉ name.data := fun hm => by
    have hm1 : name.data.contains ' ' = true := List.elem_eq_true_of_mem hm
    rw [hm1] at hc1
    exact Bool.noConfusion hc1
  have hun : '_' ∉ name.data := fun hm => by
    have hm1 : name.data.contains '_' = true := List.elem_eq_true_of_mem hm
    rw [hm1] at hc2
    exact Bool.noConfusion hc2
  have hlow : name.data.map lowerChar = name.data := by
    rw [Bool.not_eq_false'] at hc3
    exact (eq_of_beq hc3).symm
  show String.mk (getNewNameL name.data) = name
  rw [getNewNameL_eq_self hsp hun hlow h2]

/-- Witness for the amended C1 at the concrete name "a-b.txt". -/
theorem C1_witness : get_new_name "a-b.txt" = "a-b.txt" :=
  C1_amended "a-b.txt" (by decide) (by decide)

/-! Specification-level normalizer (claim C7).  The following definitions
follow the wording of the specification, written independently of the
embedding of the source: the index of the last dot, the split at that
index, the replacement of spaces and underscores, the collapse of runs of
characters outside [a-zA-Z0-9.], and the lower-casing pass. -/

/-- Index of the last dot of a name, if any. -/
def lastDotIdx : List Char → Option Nat
  | [] => none
  | c :: cs =>
    match lastDotIdx cs with
    | some i => some (i + 1)
    | none => if c = '.' then some 0 else none

/-- Split at the last dot exactly as the specification sentence words it:
the extension is the last dot-delimited suffix, with no exception. -/
def splitextSpecLastDot (s : List Char) : List Char × List Char :=
  match lastDotIdx s with
  | none => (s, [])
  | some i => (s.take i, s.drop i)

/-- Split at the last dot with the exception os.path.splitext makes: when
every character before the last dot is itself a dot, the name has no
extension. -/
def splitextSpec (s : List Char) : List Char × List Char :=
  match lastDotIdx s with
  | none => (s, [])
  | some i => if (s.take i).all (fun c => c == '.') then (s, []) else (s.take i, s.drop i)

/-- Replacement of spaces and underscores by hyphens, by direct recursion. -/
def replaceSpec : List Char → List Char
  | [] => []
  | c :: cs => (if c = ' ' ∨ c = '_' then '-' else c) :: replaceSpec cs

/-- Membership in [a-zA-Z0-9.] phrased through character ranges. -/
def goodSpec (c : Char) : Bool :=
  (('a' ≤ c && c ≤ 'z') || ('A' ≤ c && c ≤ 'Z') || ('0' ≤ c && c ≤ '9') || c == '.')

/-- Removal of one hyphen standing at the head of a list, if any. -/
def dropLeadDash : List Char → List Char
  | [] => []
  | d :: rest => if d = '-' then rest else d :: rest

/-- Collapse of runs of characters outside the class into single hyphens,
merging from the right: a character outside the class absorbs a hyphen
already standing at the head of the collapsed tail. -/
def collapseSpec : List Char → List Char
  | [] => []
  | c :: cs =>
    if goodSpec c then c :: collapseSpec cs
    else '-' :: dropLeadDash (collapseSpec cs)

/-- Lower-casing by direct recursion through the core toLower. -/
def lowerSpec : List Char → List Char
  | [] => []
  | c :: cs => c.toLower :: lowerSpec cs

/-- Normalizer as the specification words it, with the split taken
literally at the last dot. -/
def getNewNameSpecLastDot (s : List Char) : List Char :=
  let p := splitextSpecLastDot s
  lowerSpec (collapseSpec (replaceSpec p.1) ++ p.2)

/-- Normalizer as the specification words it, amended with the
leading-dots exception of os.path.splitext. -/
def getNewNameSpec (s : List Char) : List Char :=
  let p := splitextSpec s
  lowerSpec (collapseSpec (replaceSpec p.1) ++ p.2)

/-- C7 is false as stated: on the name ".A B" the source's normalizer does
not split at the last dot.  os.path.splitext treats ".A B" as having no
extension, so the space is replaced by a hyphen and the code returns
".a-b", while a split at the last dot would put the whole name into the
untouched extension and produce ".a b". -/
theorem C7_counterexample :
    getNewNameL (String.data ".A B") = String.data ".a-b" ∧
    getNewNameSpecLastDot (String.data ".A B") = String.data ".a b" ∧
    getNewNameL (String.data ".A B") ≠ getNewNameSpecLastDot (String.data ".A B") := by
  decide

/-! Equivalence of the specification-level normalizer with the embedded
source normalizer. -/

theorem charle_iff (a b : Char) : a ≤ b ↔ a.toNat ≤ b.toNat := by
  rw [Char.le_def, UInt32.le_def]
  rfl

theorem goodSpec_eq_goodChar (c : Char) : goodSpec c = goodChar c := by
  rw [Bool.eq_iff_iff]
  simp only [goodSpec, goodChar, Bool.or_eq_true, Bool.and_eq_true, decide_eq_true_eq,
    beq_iff_eq, charle_iff]
  have ea : ('a' : Char).toNat = 97 := rfl
  have ez : ('z' : Char).toNat = 122 := rfl
  have eA : ('A' : Char).toNat = 65 := rfl
  have eZ : ('Z' : Char).toNat = 90 := rfl
  have e0 : ('0' : Char).toNat = 48 := rfl
  have e9 : ('9' : Char).toNat = 57 := rfl
  rw [ea, ez, eA, eZ, e0, e9]
  constructor
  · rintro (((h | h) | h) | h)
    · exact Or.inl (Or.inl (Or.inl h))
    · exact Or.inl (Or.inl (Or.inr h))
    · exact Or.inl (Or.inr h)
    · subst h
      exact Or.inr rfl
  · rintro (((h | h) | h) | h)
    · exact Or.inl (Or.inl (Or.inl h))
    · exact Or.inl (Or.inl (Or.inr h))
    · exact Or.inl (Or.inr h)
    · exact Or.inr (char_eq_of_toNat_eq (by rw [h]; rfl))

theorem replaceSpec_eq : ∀ s : List Char,
    replaceSpec s = replaceChar '_' '-' (replaceChar ' ' '-' s)
  | [] => rfl
  | c :: cs => by
    have ih := replaceSpec_eq cs
    simp only [replaceSpec, replaceChar, List.map_cons] at ih ⊢
    rw [ih]
    have hhead : (if c = ' ' ∨ c = '_' then '-' else c) =
        (if (if c = ' ' then '-' else c) = '_' then '-'
         else (if c = ' ' then '-' else c)) := by
      by_cases hs : c = ' '
      · subst hs
        rw [if_pos (Or.inl rfl), if_pos rfl, if_neg (by decide)]
      · by_cases hu : c = '_'
        · subst hu
          rw [if_pos (Or.inr rfl), if_neg hs, if_pos rfl]
        · rw [if_neg (fun hor => hor.elim hs hu), if_neg hs, if_neg hu]
    rw [hhead]

theorem toLower_eq_lowerChar (c : Char) : c.toLower = lowerChar c := rfl

theorem lowerSpec_eq : ∀ s : List Char, lowerSpec s = s.map lowerChar
  | [] => rfl
  | c :: cs => by
    simp only [lowerSpec, List.map_cons]
    rw [toLower_eq_lowerChar, lowerSpec_eq cs]

theorem collapseSpec_eq : ∀ s : List Char,
    collapseSpec s = collapseAux false s ∧
      collapseAux true s = dropLeadDash (collapseSpec s)
  | [] => ⟨rfl, rfl⟩
  | c :: cs => by
    obtain ⟨ih1, ih2⟩ := collapseSpec_eq cs
    by_cases hg : goodChar c = true
    · have hgs : goodSpec c = true := by rw [goodSpec_eq_goodChar]; exact hg
      have hne : ¬ c = '-' := fun he => by
        rw [he] at hg; exact absurd hg (by decide)
      constructor
      · simp only [collapseSpec, hgs, if_true]
        rw [collapseAux_cons, if_pos hg, ih1]
      · rw [collapseAux_cons, if_pos hg]
        simp only [collapseSpec, hgs, if_true, dropLeadDash, hne, if_false]
        rw [ih1]
    · have hg' : goodChar c = false := by simpa using hg
      have hgs : goodSpec c = false := by rw [goodSpec_eq_goodChar]; exact hg'
      constructor
      · simp only [collapseSpec, hgs, Bool.false_eq_true, if_false]
        rw [collapseAux_cons, if_neg (by rw [hg']; exact Bool.noConfusion),
          if_neg (by exact Bool.noConfusion), ih2]
      · rw [collapseAux_cons, if_neg (by rw [hg']; exact Bool.noConfusion),
          if_pos rfl, ih2]
        simp only [collapseSpec, hgs, Bool.false_eq_true, if_false, dropLeadDash,
          if_pos rfl]
        simp

theorem lastDotIdx_cons_some {cs : List Char} {i : Nat} (h : lastDotIdx cs = some i)
    (c : Char) : lastDotIdx (c :: cs) = some (i + 1) := by
  simp [lastDotIdx, h]

theorem lastDotIdx_cons_none {cs : List Char} (h : lastDotIdx cs = none) (c : Char) :
    lastDotIdx (c :: cs) = if c = '.' then some 0 else none := by
  simp [lastDotIdx, h]

theorem lastDotIdx_eq_none_iff : ∀ s : List Char, lastDotIdx s = none ↔ '.' ∉ s
  | [] => by simp [lastDotIdx]
  | c :: cs => by
    cases hld : lastDotIdx cs with
    | some j =>
      rw [lastDotIdx_cons_some hld]
      constructor
      · intro h; exact Option.noConfusion h
      · intro h
        have h1 : '.' ∉ cs := fun hm => h (List.mem_cons_of_mem c hm)
        rw [(lastDotIdx_eq_none_iff cs).mpr h1] at hld
        exact Option.noConfusion hld
    | none =>
      rw [lastDotIdx_cons_none hld]
      have h1 : '.' ∉ cs := (lastDotIdx_eq_none_iff cs).mp hld
      by_cases hc : c = '.'
      · subst hc
        simp
      · simp only [hc, if_false, List.mem_cons, ite_false]
        constructor
        · intro _ hm
          rcases hm with hm | hm
          · exact hc hm.symm
          · exact h1 hm
        · intro _
          trivial

theorem lastDotIdx_append_dot {after : List Char} (h : '.' ∉ after) :
    ∀ B : List Char, lastDotIdx (B ++ '.' :: after) = some B.length
  | [] => by
    have h0 : lastDotIdx after = none := (lastDotIdx_eq_none_iff after).mpr h
    rw [List.nil_append, lastDotIdx_cons_none h0, if_pos rfl]
    rfl
  | c :: B => by
    rw [List.cons_append, lastDotIdx_cons_some (lastDotIdx_append_dot h B) c]
    rfl

theorem lastDotIdx_structure : ∀ (s : List Char) (i : Nat), lastDotIdx s = some i →
    ∃ B after, s = B ++ '.' :: after ∧ B.length = i ∧ '.' ∉ after
  | [], i, h => by simp [lastDotIdx] at h
  | c :: cs, i, h => by
    cases hld : lastDotIdx cs with
    | some j =>
      rw [lastDotIdx_cons_some hld] at h
      obtain rfl : j + 1 = i := Option.some_injective _ h
      obtain ⟨B, after, hcs, hlen, hnd⟩ := lastDotIdx_structure cs j hld
      exact ⟨c :: B, after, by rw [hcs]; rfl, by simp [hlen], hnd⟩
    | none =>
      rw [lastDotIdx_cons_none hld] at h
      by_cases hc : c = '.'
      · subst hc
        rw [if_pos rfl] at h
        obtain rfl : (0 : Nat) = i := Option.some_injective _ h
        exact ⟨[], cs, rfl, rfl, (lastDotIdx_eq_none_iff cs).mp hld⟩
      · rw [if_neg hc] at h
        exact Option.noConfusion h

theorem splitextSpec_eq (s : List Char) : splitextSpec s = splitext s := by
  cases hld : lastDotIdx s with
  | none =>
    have hnd : '.' ∉ s := (lastDotIdx_eq_none_iff s).mp hld
    rw [splitext_of_no_dot hnd]
    simp [splitextSpec, hld]
  | some i =>
    obtain ⟨B, after, hs, hlen, hnd⟩ := lastDotIdx_structure s i hld
    subst hs
    subst hlen
    simp only [splitextSpec, hld, List.take_left, List.drop_left]
    by_cases hall : B.all (fun c => c == '.') = true
    · rw [if_pos hall]
      have hB : B = List.replicate B.length '.' := by
        apply List.eq_replicate_of_mem
        intro b hb
        have h1 := List.all_eq_true.mp hall b hb
        simpa using h1
      have hform : B ++ '.' :: after = List.replicate (B.length + 1) '.' ++ after := by
        conv_lhs => rw [hB]
        rw [List.replicate_succ', List.append_assoc]
        rfl
      rw [hform, splitext_dots_prefix (Nat.le_add_left 1 B.length) hnd]
    · rw [if_neg hall]
      have hBnd : ∃ c ∈ B, ¬ c = '.' := by
        have h1 : ¬ ∀ c ∈ B, (fun c => c == '.') c = true := fun hc =>
          hall (List.all_eq_true.mpr hc)
        push_neg at h1
        rcases h1 with ⟨c, hc, hcd⟩
        exact ⟨c, hc, by simpa using hcd⟩
      rw [splitext_split (fun c hc he => hnd (he ▸ hc)) hBnd]

theorem getNewNameL_eq_spec (s : List Char) : getNewNameL s = getNewNameSpec s := by
  simp only [getNewNameL, getNewNameSpec]
  rw [splitextSpec_eq, replaceSpec_eq, (collapseSpec_eq _).1, lowerSpec_eq]
  rfl

/-- C7 (amended): normalize splits the name into base and extension as
os.path.splitext does (the suffix from the last dot, except that a name
whose characters before its last dot are all dots has no extension),
replaces spaces and underscores of the base with hyphens, collapses every
run of characters outside [A-Za-z0-9.] in the base into a single hyphen,
and lower-cases the reconstructed base-plus-original-extension; in
particular normalize("My File_Name.TXT") equals "my-file-name.txt". -/
theorem C7_amended :
    (∀ name : String, get_new_name name = String.mk (getNewNameSpec name.data)) ∧
    get_new_name "My File_Name.TXT" = "my-file-name.txt" :=
  ⟨fun name => congrArg String.mk (getNewNameL_eq_spec name.data), by decide⟩

/-! Directory trees, the traversal and the rename plan. -/

/-- Path as the list of its name components from the root downward;
os.path.join of a directory path with a child name appends the name. -/
abbrev FsPath := List String

/-- Entry of a directory tree: a file or a directory, carrying its name,
whether it is a symbolic link, and (for a directory) its children in the
order os.listdir yields them. -/
inductive FsTree where
  | file : String → Bool → FsTree
  | dir : String → Bool → List FsTree → FsTree

/-- Name of an entry. -/
def nameOf : FsTree → String
  | .file n _ => n
  | .dir n _ _ => n

/-- Property of a name of starting with a dot. -/
def hiddenName (n : String) : Bool :=
  match n.data with
  | [] => false
  | c :: _ => c == '.'

/-- Function is_hidden of the source (lines 49-54): the basename of the
path starts with a dot. -/
def is_hidden (p : FsPath) : Bool := hiddenName (p.getLastD "")

theorem is_hidden_append (p : FsPath) (n : String) :
    is_hidden (p ++ [n]) = hiddenName n := by
  unfold is_hidden
  rw [List.getLastD_concat]

/-- Rename plan item: the pair (old_path, new_path). -/
abbrev RenameItem := FsPath × FsPath

/-- Accumulator pair of collect_renames (lines 56-78 of the source): for a
directory's children in listing order, the first component gathers the
items appended to file_renames (file items of renamable direct files, and
the full recursive plan of each direct subdirectory) and the second the
items appended to dir_renames (one item per non-hidden non-link direct
subdirectory, scheduled unconditionally). -/
def collectPair (p : FsPath) : List FsTree → List RenameItem × List RenameItem
  | [] => ([], [])
  | FsTree.file n lnk :: rest =>
    let tail := collectPair p rest
    if is_hidden (p ++ [n]) || lnk then tail
    else if should_rename n then
      ((p ++ [n], p ++ [get_new_name n]) :: tail.1, tail.2)
    else tail
  | FsTree.dir n lnk ch :: rest =>
    let tail := collectPair p rest
    if is_hidden (p ++ [n]) || lnk then tail
    else
      let sub := collectPair (p ++ [n]) ch
      ((sub.1 ++ sub.2) ++ tail.1, (p ++ [n], p ++ [get_new_name n]) :: tail.2)
termination_by es => sizeOf es

/-- Function collect_renames of the source (lines 56-78): the collected
file renames followed by the collected directory renames. -/
def collect_renames (p : FsPath) (entries : List FsTree) : List RenameItem :=
  (collectPair p entries).1 ++ (collectPair p entries).2

theorem collectPair_nil (p : FsPath) : collectPair p [] = ([], []) := by
  simp [collectPair]

theorem collectPair_file (p : FsPath) (n : String) (lnk : Bool) (rest : List FsTree) :
    collectPair p (FsTree.file n lnk :: rest) =
      if is_hidden (p ++ [n]) || lnk then collectPair p rest
      else if should_rename n then
        ((p ++ [n], p ++ [get_new_name n]) :: (collectPair p rest).1,
          (collectPair p rest).2)
      else collectPair p rest := by
  simp [collectPair]

theorem collectPair_dir (p : FsPath) (n : String) (lnk : Bool) (ch rest : List FsTree) :
    collectPair p (FsTree.dir n lnk ch :: rest) =
      if is_hidden (p ++ [n]) || lnk then collectPair p rest
      else
        (((collectPair (p ++ [n]) ch).1 ++ (collectPair (p ++ [n]) ch).2) ++
            (collectPair p rest).1,
          (p ++ [n], p ++ [get_new_name n]) :: (collectPair p rest).2) := by
  simp [collectPair]

/-- Well-formed forest: sibling names are distinct at every level, as
os.listdir guarantees for a directory of a real filesystem. -/
def wfB : List FsTree → Bool
  | [] => true
  | FsTree.file n _ :: rest => !((rest.map nameOf).contains n) && wfB rest
  | FsTree.dir n _ ch :: rest =>
    !((rest.map nameOf).contains n) && wfB ch && wfB rest
termination_by es => sizeOf es

theorem wfB_nil : wfB [] = true := by simp [wfB]

theorem wfB_file (n : String) (lnk : Bool) (rest : List FsTree) :
    wfB (FsTree.file n lnk :: rest) =
      (!((rest.map nameOf).contains n) && wfB rest) := by
  simp [wfB]

theorem wfB_dir (n : String) (lnk : Bool) (ch rest : List FsTree) :
    wfB (FsTree.dir n lnk ch :: rest) =
      (!((rest.map nameOf).contains n) && wfB ch && wfB rest) := by
  simp [wfB]

/-- Removal of every hidden entry and every symbolic link from a forest,
recursively. -/
def prune : List FsTree → List FsTree
  | [] => []
  | FsTree.file n lnk :: rest =>
    if hiddenName n || lnk then prune rest else FsTree.file n lnk :: prune rest
  | FsTree.dir n lnk ch :: rest =>
    if hiddenName n || lnk then prune rest
    else FsTree.dir n lnk (prune ch) :: prune rest
termination_by es => sizeOf es

/-- Rename items of the direct non-hidden non-link subdirectories of a
directory, in listing order (a direct reading of the dir_renames list the
loop of collect_renames builds for one directory). -/
def directDirItems (p : FsPath) : List FsTree → List RenameItem
  | [] => []
  | FsTree.file _ _ :: rest => directDirItems p rest
  | FsTree.dir n lnk _ :: rest =>
    if hiddenName n || lnk then directDirItems p rest
    else (p ++ [n], p ++ [get_new_name n]) :: directDirItems p rest

/-- C3 is false as stated: on the tree root/{"A B"/{"C D"/}, "e f"} the
computed plan is [item of "C D", item of "e f", item of "A B"]: the
directory item of "C D" precedes the file item of "e f", so file items do
not all come first, and the item of the directory "A B" comes after the
item of its own subdirectory "C D", so directories are not shallow-first;
the old path of the "A B" item is a strict prefix of the old path of the
"C D" item that precedes it. -/
theorem C3_counterexample :
    collect_renames ["root"]
        [FsTree.dir "A B" false [FsTree.dir "C D" false []], FsTree.file "e f" false] =
      [(["root", "A B", "C D"], ["root", "A B", "c-d"]),
       (["root", "e f"], ["root", "e-f"]),
       (["root", "A B"], ["root", "a-b"])] ∧
    (["root", "A B"] : FsPath) <+: ["root", "A B", "C D"] ∧
    (["root", "A B"] : FsPath) ≠ ["root", "A B", "C D"] := by
  refine ⟨?_, ?_, ?_⟩
  · simp only [collect_renames, collectPair_dir, collectPair_file, collectPair_nil]
    norm_num [is_hidden_append]
    decide
  · exact ⟨["C D"], rfl⟩
  · decide

/-! Shape and ordering of the rename plan. -/

theorem collectPair_old_shape : ∀ (es : List FsTree) (p : FsPath),
    (∀ it ∈ (collectPair p es).1, ∃ n s, it.1 = p ++ n :: s ∧ n ∈ es.map nameOf) ∧
    (∀ it ∈ (collectPair p es).2, ∃ n, it.1 = p ++ [n] ∧ n ∈ es.map nameOf)
  | [], p => by
    rw [collectPair_nil]
    exact ⟨fun it h => absurd h (List.not_mem_nil it),
      fun it h => absurd h (List.not_mem_nil it)⟩
  | FsTree.file n lnk :: rest, p => by
    have ih := collectPair_old_shape rest p
    rw [collectPair_file]
    by_cases hskip : (is_hidden (p ++ [n]) || lnk) = true
    · rw [if_pos hskip]
      refine ⟨fun it h => ?_, fun it h => ?_⟩
      · obtain ⟨m, s, h1, h2⟩ := ih.1 it h
        exact ⟨m, s, h1, List.mem_cons_of_mem _ h2⟩
      · obtain ⟨m, h1, h2⟩ := ih.2 it h
        exact ⟨m, h1, List.mem_cons_of_mem _ h2⟩
    · rw [if_neg hskip]
      by_cases hsr : should_rename n = true
      · rw [if_pos hsr]
        refine ⟨fun it h => ?_, fun it h => ?_⟩
        · rcases List.mem_cons.mp h with h1 | h1
          · exact ⟨n, [], by rw [h1], List.mem_cons_self _ _⟩
          · obtain ⟨m, s, h2, h3⟩ := ih.1 it h1
            exact ⟨m, s, h2, List.mem_cons_of_mem _ h3⟩
        · obtain ⟨m, h1, h2⟩ := ih.2 it h
          exact ⟨m, h1, List.mem_cons_of_mem _ h2⟩
      · rw [if_neg hsr]
        refine ⟨fun it h => ?_, fun it h => ?_⟩
        · obtain ⟨m, s, h1, h2⟩ := ih.1 it h
          exact ⟨m, s, h1, List.mem_cons_of_mem _ h2⟩
        · obtain ⟨m, h1, h2⟩ := ih.2 it h
          exact ⟨m, h1, List.mem_cons_of_mem _ h2⟩
  | FsTree.dir n lnk ch :: rest, p => by
    have ih := collectPair_old_shape rest p
    have ihc := collectPair_old_shape ch (p ++ [n])
    rw [collectPair_dir]
    by_cases hskip : (is_hidden (p ++ [n]) || lnk) = true
    · rw [if_pos hskip]
      refine ⟨fun it h => ?_, fun it h => ?_⟩
      · obtain ⟨m, s, h1, h2⟩ := ih.1 it h
        exact ⟨m, s, h1, List.mem_cons_of_mem _ h2⟩
      · obtain ⟨m, h1, h2⟩ := ih.2 it h
        exact ⟨m, h1, List.mem_cons_of_mem _ h2⟩
    · rw [if_neg hskip]
      refine ⟨fun it h => ?_, fun it h => ?_⟩
      · rcases List.mem_append.mp h with h1 | h1
        · have hsub : ∃ m s, it.1 = (p ++ [n]) ++ m :: s := by
            rcases List.mem_append.mp h1 with h2 | h2
            · obtain ⟨m, s, h3, _⟩ := ihc.1 it h2
              exact ⟨m, s, h3⟩
            · obtain ⟨m, h3, _⟩ := ihc.2 it h2
              exact ⟨m, [], h3⟩
          obtain ⟨m, s, h3⟩ := hsub
          refine ⟨n, m :: s, ?_, List.mem_cons_self _ _⟩
          rw [h3, List.append_assoc]
          rfl
        · obtain ⟨m, s, h2, h3⟩ := ih.1 it h1
          exact ⟨m, s, h2, List.mem_cons_of_mem _ h3⟩
      · rcases List.mem_cons.mp h with h1 | h1
        · exact ⟨n, by rw [h1], List.mem_cons_self _ _⟩
        · obtain ⟨m, h2, h3⟩ := ih.2 it h1
          exact ⟨m, h2, List.mem_cons_of_mem _ h3⟩
termination_by es _ => sizeOf es

theorem not_mem_of_contains_eq_false {l : List String} {a : String}
    (h : l.contains a = false) : a ∉ l := fun hm => by
  have hm1 : l.contains a = true := List.elem_eq_true_of_mem hm
  rw [hm1] at h
  exact Bool.noConfusion h

theorem append_cons_prefix_head_eq {p : FsPath} {x y : String}
    {u v : List String} (h : p ++ x :: u <+: p ++ y :: v) : x = y :=
  (List.cons_prefix_cons.mp ((List.prefix_append_right_inj p).mp h)).1

theorem eq_false_of_not_eq_true {b : Bool} (h : (!b) = true) : b = false := by
  cases b
  · rfl
  · exact Bool.noConfusion h

theorem collect_renames_pairwise : ∀ (es : List FsTree) (p : FsPath),
    wfB es = true →
    List.Pairwise (fun a b : RenameItem => ¬ (a.1 <+: b.1 ∧ a.1 ≠ b.1))
      ((collectPair p es).1 ++ (collectPair p es).2)
  | [], p, _ => by
    rw [collectPair_nil]
    exact List.Pairwise.nil
  | FsTree.file n lnk :: rest, p, hwf => by
    rw [wfB_file] at hwf
    obtain ⟨hcont, hwfr⟩ := Bool.and_eq_true_iff.mp hwf
    have hnotmem : n ∉ rest.map nameOf :=
      not_mem_of_contains_eq_false (eq_false_of_not_eq_true hcont)
    have ih := collect_renames_pairwise rest p hwfr
    rw [collectPair_file]
    by_cases hskip : (is_hidden (p ++ [n]) || lnk) = true
    · rw [if_pos hskip]
      exact ih
    · rw [if_neg hskip]
      by_cases hsr : should_rename n = true
      · rw [if_pos hsr, List.cons_append, List.pairwise_cons]
        refine ⟨?_, ih⟩
        intro b hb hcontra
        have hshape : ∃ m s, b.1 = p ++ m :: s ∧ m ∈ rest.map nameOf := by
          rcases List.mem_append.mp hb with h1 | h1
          · exact (collectPair_old_shape rest p).1 b h1
          · obtain ⟨m, h2, h3⟩ := (collectPair_old_shape rest p).2 b h1
            exact ⟨m, [], h2, h3⟩
        obtain ⟨m, s, hb1, hm⟩ := hshape
        have hc1 : (p ++ [n] : FsPath) <+: b.1 := hcontra.1
        rw [hb1] at hc1
        exact hnotmem (append_cons_prefix_head_eq hc1 ▸ hm)
      · rw [if_neg hsr]
        exact ih
  | FsTree.dir n lnk ch :: rest, p, hwf => by
    rw [wfB_dir] at hwf
    obtain ⟨hcw, hwfr⟩ := Bool.and_eq_true_iff.mp hwf
    obtain ⟨hcont, hwfc⟩ := Bool.and_eq_true_iff.mp hcw
    have hnotmem : n ∉ rest.map nameOf :=
      not_mem_of_contains_eq_false (eq_false_of_not_eq_true hcont)
    have ihr := collect_renames_pairwise rest p hwfr
    have ihc := collect_renames_pairwise ch (p ++ [n]) hwfc
    rw [collectPair_dir]
    by_cases hskip : (is_hidden (p ++ [n]) || lnk) = true
    · rw [if_pos hskip]
      exact ihr
    · rw [if_neg hskip]
      obtain ⟨pr1, pr2, cr12⟩ := List.pairwise_append.mp ihr
      have hshape_rest : ∀ b, b ∈ (collectPair p rest).1 ∨ b ∈ (collectPair p rest).2 →
          ∃ m s, b.1 = p ++ m :: s ∧ m ∈ rest.map nameOf := by
        intro b hb
        rcases hb with h1 | h1
        · exact (collectPair_old_shape rest p).1 b h1
        · obtain ⟨m, h2, h3⟩ := (collectPair_old_shape rest p).2 b h1
          exact ⟨m, [], h2, h3⟩
      have hshape_sub : ∀ a, a ∈ (collectPair (p ++ [n]) ch).1 ++
          (collectPair (p ++ [n]) ch).2 →
          ∃ m s, a.1 = p ++ n :: m :: s := by
        intro a ha
        have h0 : ∃ m s, a.1 = (p ++ [n]) ++ m :: s := by
          rcases List.mem_append.mp ha with h1 | h1
          · obtain ⟨m, s, h2, _⟩ := (collectPair_old_shape ch (p ++ [n])).1 a h1
            exact ⟨m, s, h2⟩
          · obtain ⟨m, h2, _⟩ := (collectPair_old_shape ch (p ++ [n])).2 a h1
            exact ⟨m, [], h2⟩
        obtain ⟨m, s, h2⟩ := h0
        refine ⟨m, s, ?_⟩
        rw [h2, List.append_assoc]
        rfl
      show List.Pairwise _
        ((((collectPair (p ++ [n]) ch).1 ++ (collectPair (p ++ [n]) ch).2) ++
          (collectPair p rest).1) ++
          ((p ++ [n], p ++ [get_new_name n]) :: (collectPair p rest).2))
      rw [List.append_assoc]
      rw [List.pairwise_append]
      refine ⟨ihc, ?_, ?_⟩
      · rw [List.pairwise_append]
        refine ⟨pr1, ?_, ?_⟩
        · rw [List.pairwise_cons]
          refine ⟨?_, pr2⟩
          intro b hb hcontra
          obtain ⟨m, hb1, hm⟩ := (collectPair_old_shape rest p).2 b hb
          have hc1 : (p ++ [n] : FsPath) <+: b.1 := hcontra.1
          rw [hb1] at hc1
          exact hnotmem (append_cons_prefix_head_eq hc1 ▸ hm)
        · intro a ha b hb
          rcases List.mem_cons.mp hb with hb1 | hb1
          · intro hcontra
            obtain ⟨m, s, ha1, hm⟩ := hshape_rest a (Or.inl ha)
            have hc1 : a.1 <+: (p ++ [n] : FsPath) := by
              rw [hb1] at hcontra
              exact hcontra.1
            rw [ha1] at hc1
            exact hnotmem (append_cons_prefix_head_eq hc1 ▸ hm)
          · exact cr12 a ha b hb1
      · intro a ha b hb hcontra
        obtain ⟨m, s, ha1⟩ := hshape_sub a ha
        rcases List.mem_append.mp hb with hb1 | hb1
        · obtain ⟨m', s', hb2, hm'⟩ := hshape_rest b (Or.inl hb1)
          have hc1 : a.1 <+: b.1 := hcontra.1
          rw [ha1, hb2] at hc1
          exact hnotmem (append_cons_prefix_head_eq hc1 ▸ hm')
        · rcases List.mem_cons.mp hb1 with hb2 | hb2
          · have hc1 : a.1 <+: (p ++ [n] : FsPath) := by
              rw [hb2] at hcontra
              exact hcontra.1
            rw [ha1] at hc1
            have h1 := (List.prefix_append_right_inj p).mp hc1
            obtain ⟨_, h2⟩ := List.cons_prefix_cons.mp h1
            exact List.cons_ne_nil m s (List.prefix_nil.mp h2)
          · obtain ⟨m', s', hb2, hm'⟩ := hshape_rest b (Or.inr hb2)
            have hc1 : a.1 <+: b.1 := hcontra.1
            rw [ha1, hb2] at hc1
            exact hnotmem (append_cons_prefix_head_eq hc1 ▸ hm')
termination_by es _ _ => sizeOf es

/-- C4: for every well-formed directory tree (distinct sibling names, as
os.listdir guarantees), whenever the old path of the plan item at position
j is a strict prefix of the old path of the plan item at position i (for
example when item j renames a directory and item i renames an entry
strictly inside it), item i comes first: i < j.  So each entry is renamed
while all its ancestor directories still carry their original names.  In
particular, planning root/"A Dir"/"sub_file.TXT" yields the item of
sub_file.TXT before the item "A Dir" to "a-dir". -/
theorem C4_inner_items_before_parent :
    (∀ (p : FsPath) (es : List FsTree), wfB es = true →
      ∀ (i j : Nat) (a b : RenameItem),
        (collect_renames p es)[i]? = some a → (collect_renames p es)[j]? = some b →
        b.1 <+: a.1 → b.1 ≠ a.1 → i < j) ∧
    collect_renames []
        [FsTree.dir "A Dir" false [FsTree.file "sub_file.TXT" false]] =
      [(["A Dir", "sub_file.TXT"], ["A Dir", "sub-file.txt"]),
       (["A Dir"], ["a-dir"])] := by
  constructor
  · intro p es hwf i j a b ha hb hpre hne
    have hpw : List.Pairwise (fun a b : RenameItem => ¬ (a.1 <+: b.1 ∧ a.1 ≠ b.1))
        (collect_renames p es) := collect_renames_pairwise es p hwf
    obtain ⟨hi, hia⟩ := List.getElem?_eq_some.mp ha
    obtain ⟨hj, hjb⟩ := List.getElem?_eq_some.mp hb
    by_contra hij
    have hij' : j < i ∨ j = i := by omega
    rcases hij' with h1 | h1
    · have h2 := List.pairwise_iff_get.mp hpw ⟨j, hj⟩ ⟨i, hi⟩ h1
      rw [List.get_eq_getElem, List.get_eq_getElem] at h2
      rw [hia, hjb] at h2
      exact h2 ⟨hpre, hne⟩
    · subst h1
      rw [hia] at hjb
      exact hne (by rw [hjb])
  · simp only [collect_renames, collectPair_dir, collectPair_file, collectPair_nil]
    norm_num [is_hidden_append]
    decide

/-- Witness for C4 on the concrete tree root/"A Dir"/"sub_file.TXT": the
sub_file item sits at position 0 and the "A Dir" item at position 1, whose
old path ["A Dir"] is a strict prefix of ["A Dir", "sub_file.TXT"]. -/
theorem C4_witness : (0 : Nat) < 1 := by
  have h := C4_inner_items_before_parent
  refine h.1 [] [FsTree.dir "A Dir" false [FsTree.file "sub_file.TXT" false]] ?_ 0 1
    (["A Dir", "sub_file.TXT"], ["A Dir", "sub-file.txt"]) (["A Dir"], ["a-dir"])
    ?_ ?_ ?_ ?_
  · simp only [wfB_dir, wfB_file, wfB_nil]
    decide
  · rw [h.2]
    decide
  · rw [h.2]
    decide
  · exact ⟨["sub_file.TXT"], rfl⟩
  · decide

theorem collectPair_snd_eq_directDirItems : ∀ (es : List FsTree) (p : FsPath),
    (collectPair p es).2 = directDirItems p es
  | [], p => by
    rw [collectPair_nil]
    rfl
  | FsTree.file n lnk :: rest, p => by
    rw [collectPair_file]
    by_cases hskip : (is_hidden (p ++ [n]) || lnk) = true
    · rw [if_pos hskip]
      exact collectPair_snd_eq_directDirItems rest p
    · rw [if_neg hskip]
      by_cases hsr : should_rename n = true
      · rw [if_pos hsr]
        exact collectPair_snd_eq_directDirItems rest p
      · rw [if_neg hsr]
        exact collectPair_snd_eq_directDirItems rest p
  | FsTree.dir n lnk ch :: rest, p => by
    rw [collectPair_dir]
    have hcond : (is_hidden (p ++ [n]) || lnk) = (hiddenName n || lnk) := by
      rw [is_hidden_append]
    by_cases hskip : (is_hidden (p ++ [n]) || lnk) = true
    · rw [if_pos hskip]
      show _ = directDirItems p (FsTree.dir n lnk ch :: rest)
      rw [directDirItems, if_pos (by rw [← hcond]; exact hskip)]
      exact collectPair_snd_eq_directDirItems rest p
    · rw [if_neg hskip]
      show _ = directDirItems p (FsTree.dir n lnk ch :: rest)
      rw [directDirItems,
        if_neg (fun hc => hskip (by rw [hcond]; exact hc))]
      rw [collectPair_snd_eq_directDirItems rest p]
termination_by es _ => sizeOf es

/-- C3 (amended): the plan of a directory consists of the items gathered
from its children in listing order (the file item of each renamable direct
file, and the complete plan of each direct subdirectory), followed by the
rename items of the direct non-hidden non-link subdirectories themselves
in listing order; consequently, on a well-formed tree, directory items are
ordered deepest-first: no item's old path is a strict prefix of the old
path of a later item, i.e. every directory's rename item appears after the
rename items of its own subtree. -/
theorem C3_amended :
    (∀ (p : FsPath) (es : List FsTree),
      collect_renames p es = (collectPair p es).1 ++ directDirItems p es) ∧
    (∀ (p : FsPath) (es : List FsTree), wfB es = true →
      List.Pairwise (fun a b : RenameItem => ¬ (a.1 <+: b.1 ∧ a.1 ≠ b.1))
        (collect_renames p es)) := by
  constructor
  · intro p es
    rw [collect_renames, collectPair_snd_eq_directDirItems]
  · intro p es hwf
    exact collect_renames_pairwise es p hwf

/-- Witness for the amended C3 on the tree of the C3 counterexample. -/
theorem C3_witness :
    collect_renames ["root"]
        [FsTree.dir "A B" false [FsTree.dir "C D" false []], FsTree.file "e f" false] =
      (collectPair ["root"]
        [FsTree.dir "A B" false [FsTree.dir "C D" false []],
          FsTree.file "e f" false]).1 ++
      directDirItems ["root"]
        [FsTree.dir "A B" false [FsTree.dir "C D" false []],
          FsTree.file "e f" false] ∧
    List.Pairwise (fun a b : RenameItem => ¬ (a.1 <+: b.1 ∧ a.1 ≠ b.1))
      (collect_renames ["root"]
        [FsTree.dir "A B" false [FsTree.dir "C D" false []],
          FsTree.file "e f" false]) :=
  ⟨C3_amended.1 _ _,
   C3_amended.2 _ _ (by simp only [wfB_dir, wfB_file, wfB_nil]; decide)⟩

/-! Hidden entries and symbolic links never reach the plan (claim C8). -/

theorem prune_nil : prune [] = [] := by simp [prune]

theorem prune_file (n : String) (lnk : Bool) (rest : List FsTree) :
    prune (FsTree.file n lnk :: rest) =
      if hiddenName n || lnk then prune rest
      else FsTree.file n lnk :: prune rest := by
  simp [prune]

theorem prune_dir (n : String) (lnk : Bool) (ch rest : List FsTree) :
    prune (FsTree.dir n lnk ch :: rest) =
      if hiddenName n || lnk then prune rest
      else FsTree.dir n lnk (prune ch) :: prune rest := by
  simp [prune]

theorem collectPair_prune : ∀ (es : List FsTree) (p : FsPath),
    collectPair p (prune es) = collectPair p es
  | [], p => by rw [prune_nil]
  | FsTree.file n lnk :: rest, p => by
    rw [prune_file, collectPair_file]
    have hcond : (is_hidden (p ++ [n]) || lnk) = (hiddenName n || lnk) := by
      rw [is_hidden_append]
    by_cases hskip : (hiddenName n || lnk) = true
    · rw [if_pos hskip, if_pos (by rw [hcond]; exact hskip)]
      exact collectPair_prune rest p
    · rw [if_neg hskip, if_neg (fun hc => hskip (by rw [← hcond]; exact hc)),
        collectPair_file, if_neg (fun hc => hskip (by rw [← hcond]; exact hc))]
      rw [collectPair_prune rest p]
  | FsTree.dir n lnk ch :: rest, p => by
    rw [prune_dir, collectPair_dir]
    have hcond : (is_hidden (p ++ [n]) || lnk) = (hiddenName n || lnk) := by
      rw [is_hidden_append]
    by_cases hskip : (hiddenName n || lnk) = true
    · rw [if_pos hskip, if_pos (by rw [hcond]; exact hskip)]
      exact collectPair_prune rest p
    · rw [if_neg hskip, collectPair_dir,
        if_neg (fun hc => hskip (by rw [← hcond]; exact hc)),
        if_neg (fun hc => hskip (by rw [← hcond]; exact hc))]
      rw [collectPair_prune rest p, collectPair_prune ch (p ++ [n])]
termination_by es _ => sizeOf es

theorem collect_renames_not_hidden : ∀ (es : List FsTree) (p : FsPath)
    (it : RenameItem), it ∈ collect_renames p es →
    ∃ s, it.1 = p ++ s ∧ s ≠ [] ∧ ∀ c ∈ s, hiddenName c = false
  | [], p, it, h => by
    rw [collect_renames, collectPair_nil] at h
    exact absurd h (List.not_mem_nil it)
  | FsTree.file n lnk :: rest, p, it, h => by
    rw [collect_renames, collectPair_file] at h
    by_cases hskip : (is_hidden (p ++ [n]) || lnk) = true
    · rw [if_pos hskip] at h
      exact collect_renames_not_hidden rest p it h
    · rw [if_neg hskip] at h
      have hor : (is_hidden (p ++ [n]) || lnk) = false := by
        cases hc : (is_hidden (p ++ [n]) || lnk)
        · rfl
        · exact absurd hc hskip
      have hnh : hiddenName n = false := by
        rw [← is_hidden_append p n]
        exact (Bool.or_eq_false_iff.mp hor).1
      by_cases hsr : should_rename n = true
      · rw [if_pos hsr, List.cons_append] at h
        rcases List.mem_cons.mp h with h1 | h1
        · refine ⟨[n], by rw [h1], List.cons_ne_nil n [], ?_⟩
          intro c hc
          rcases List.mem_cons.mp hc with h2 | h2
          · rw [h2]; exact hnh
          · exact absurd h2 (List.not_mem_nil c)
        · exact collect_renames_not_hidden rest p it h1
      · rw [if_neg hsr] at h
        exact collect_renames_not_hidden rest p it h
  | FsTree.dir n lnk ch :: rest, p, it, h => by
    rw [collect_renames, collectPair_dir] at h
    by_cases hskip : (is_hidden (p ++ [n]) || lnk) = true
    · rw [if_pos hskip] at h
      exact collect_renames_not_hidden rest p it h
    · rw [if_neg hskip] at h
      have hor : (is_hidden (p ++ [n]) || lnk) = false := by
        cases hc : (is_hidden (p ++ [n]) || lnk)
        · rfl
        · exact absurd hc hskip
      have hnh : hiddenName n = false := by
        rw [← is_hidden_append p n]
        exact (Bool.or_eq_false_iff.mp hor).1
      rcases List.mem_append.mp h with h1 | h1
      · rcases List.mem_append.mp h1 with h2 | h2
        · have h3 : it ∈ collect_renames (p ++ [n]) ch := h2
          obtain ⟨s, hs, _, hcomps⟩ := collect_renames_not_hidden ch (p ++ [n]) it h3
          refine ⟨n :: s, ?_, List.cons_ne_nil n s, ?_⟩
          · rw [hs, List.append_assoc]
            rfl
          · intro c hc
            rcases List.mem_cons.mp hc with h4 | h4
            · rw [h4]; exact hnh
            · exact hcomps c h4
        · exact collect_renames_not_hidden rest p it (List.mem_append.mpr (Or.inl h2))
      · rcases List.mem_cons.mp h1 with h2 | h2
        · refine ⟨[n], by rw [h2], List.cons_ne_nil n [], ?_⟩
          intro c hc
          rcases List.mem_cons.mp hc with h4 | h4
          · rw [h4]; exact hnh
          · exact absurd h4 (List.not_mem_nil c)
        · exact collect_renames_not_hidden rest p it (List.mem_append.mpr (Or.inr h2))
termination_by es _ _ => sizeOf es

/-- C8: hidden entries (basename starting with a dot) and symbolic links
never appear in the plan, whatever their names: the plan of a tree equals
the plan of the tree with every hidden entry and every link removed
(so entries inside a hidden or linked directory never appear either), and
every component of the old path of every plan item below the root is a
non-hidden name. -/
theorem C8_hidden_and_links_never_planned :
    (∀ (p : FsPath) (es : List FsTree),
      collect_renames p es = collect_renames p (prune es)) ∧
    (∀ (p : FsPath) (es : List FsTree) (it : RenameItem),
      it ∈ collect_renames p es →
      ∃ s, it.1 = p ++ s ∧ s ≠ [] ∧ ∀ c ∈ s, hiddenName c = false) := by
  constructor
  · intro p es
    rw [collect_renames, collect_renames, collectPair_prune]
  · intro p es it h
    exact collect_renames_not_hidden es p it h

/-- Witness for C8 on a tree holding a hidden file, a linked file, a
directory with a hidden child, and a renamable file: the plan contains the
item of "A b.txt", whose old path below the root consists of non-hidden
components. -/
theorem C8_witness :
    ∃ s, (((["r", "A b.txt"], ["r", "a-b.txt"]) : RenameItem)).1 = ["r"] ++ s ∧
      s ≠ [] ∧ ∀ c ∈ s, hiddenName c = false := by
  refine C8_hidden_and_links_never_planned.2 ["r"]
    [FsTree.file ".hidden Big" false, FsTree.file "Ok File.txt" true,
     FsTree.dir "Sub Dir" false [FsTree.file ".in ner" false],
     FsTree.file "A b.txt" false]
    (["r", "A b.txt"], ["r", "a-b.txt"]) ?_
  simp only [collect_renames, collectPair_file, collectPair_dir, collectPair_nil]
  norm_num [is_hidden_append]
  decide

/-! Filesystem state, the rename executor and the undo engine. -/

/-- Filesystem state: the list of the paths that exist (a path also exists
when it is a component-wise prefix of a listed path). -/
abbrev FS := List FsPath

/-- Existence of a path in a filesystem state. -/
def pathExistsB (p : FsPath) (fs : FS) : Bool := fs.any (fun q => p.isPrefixOf q)

/-- Model of os.rename in the collision-free regime: renaming an existing
source to itself succeeds and changes nothing (POSIX); renaming an
existing source to a fresh destination that is not below the source moves
the whole subtree; every other call (missing source, existing destination,
destination below source) fails, which the executor treats as the caught
OSError. -/
def renameFS (oldP newP : FsPath) (fs : FS) : Option FS :=
  if oldP = newP then
    if pathExistsB oldP fs then some fs else none
  else if pathExistsB oldP fs && !(pathExistsB newP fs) && !(oldP.isPrefixOf newP) then
    some (fs.map (fun q => if oldP.isPrefixOf q then newP ++ q.drop oldP.length else q))
  else none

/-- Function rename_entry of the source (lines 14-30) on a state carrying
the filesystem and the rename log: in a dry run nothing changes; otherwise
a successful os.rename appends (new_name, old_path) to the log, and a
failed one leaves both untouched (the error is only reported). -/
def rename_entry (old_path new_name : FsPath) (dry_run : Bool)
    (st : FS × List (FsPath × FsPath)) : FS × List (FsPath × FsPath) :=
  if dry_run then st
  else
    match renameFS old_path new_name st.1 with
    | some fs2 => (fs2, st.2 ++ [(new_name, old_path)])
    | none => st

/-- Loop of rename_recursively (lines 90-91 of the source): the plan items
are applied in order, starting from an empty log. -/
def executePlan (plan : List RenameItem) (dry_run : Bool) (fs : FS) :
    FS × List (FsPath × FsPath) :=
  plan.foldl (fun st it => rename_entry it.1 it.2 dry_run st) (fs, [])

/-- Function rename_recursively of the source (lines 80-93): collect the
plan, compute the longest basename of the planned old paths — max() raises
ValueError on an empty plan, modelled as none — then apply every item and
return the final state and log. -/
def rename_recursively (fs : FS) (root : FsPath) (entries : List FsTree)
    (dry_run : Bool) : Option (FS × List (FsPath × FsPath)) :=
  let to_rename := collect_renames root entries
  match (to_rename.map (fun it => (it.1.getLastD "").length)).max? with
  | none => none
  | some _ => some (executePlan to_rename dry_run fs)

/-- Function undo_renames of the source (lines 95-113): an empty log does
nothing; otherwise every log entry (new_path, old_path) is replayed in
reverse chronological order, renaming new_path back to old_path, errors
being reported and skipped. -/
def undo_renames (rename_log : List (FsPath × FsPath)) (fs : FS) : FS :=
  if rename_log = [] then fs
  else
    rename_log.reverse.foldl
      (fun f e =>
        match renameFS e.1 e.2 f with
        | some f2 => f2
        | none => f) fs

/-- Dry-run step of the executor leaves the state untouched. -/
theorem rename_entry_dry (old_path new_name : FsPath)
    (st : FS × List (FsPath × FsPath)) :
    rename_entry old_path new_name true st = st := rfl

theorem executePlan_dry : ∀ (plan : List RenameItem)
    (st : FS × List (FsPath × FsPath)),
    plan.foldl (fun st it => rename_entry it.1 it.2 true st) st = st
  | [], _ => rfl
  | it :: plan, st => by
    rw [List.foldl_cons, rename_entry_dry]
    exact executePlan_dry plan st

/-- C9: executing any plan in simulate (dry-run) mode performs no
filesystem mutation and produces an empty rename log: the final state is
the initial one and no log entry is appended for any item. -/
theorem C9_simulate_mutates_nothing (plan : List RenameItem) (fs : FS) :
    executePlan plan true fs = (fs, []) :=
  executePlan_dry plan (fs, [])

/-- C2 as the code behaves: when the computed plan is empty (for instance
on an empty directory), rename_recursively evaluates max() over an empty
sequence, which raises ValueError: the run aborts with an error instead of
returning an empty log. -/
theorem C2_empty_plan_raises (fs : FS) (root : FsPath) (entries : List FsTree)
    (dry_run : Bool) (h : collect_renames root entries = []) :
    rename_recursively fs root entries dry_run = none := by
  unfold rename_recursively
  rw [h]
  rfl

/-- Witness for the C2 evaluation at the concrete failing input: an empty
root directory, in both dry-run and real mode. -/
theorem C2_witness :
    rename_recursively [["r"]] ["r"] [] false = none ∧
    rename_recursively [["r"]] ["r"] [] true = none := by
  constructor
  · exact C2_empty_plan_raises [["r"]] ["r"] [] false
      (by rw [collect_renames, collectPair_nil]; rfl)
  · exact C2_empty_plan_raises [["r"]] ["r"] [] true
      (by rw [collect_renames, collectPair_nil]; rfl)

/-! Round trip of execute and undo (claim C5). -/

theorem pathExistsB_iff (p : FsPath) (fs : FS) :
    pathExistsB p fs = true ↔ ∃ q ∈ fs, p <+: q := by
  simp [pathExistsB, List.any_eq_true, List.isPrefixOf_iff_prefix]

theorem append_drop_of_prefix {u q : FsPath} (h : u <+: q) :
    u ++ q.drop u.length = q := by
  obtain ⟨t, rfl⟩ := h
  rw [List.drop_left]

/-- A successful rename is undone exactly by the reverse rename. -/
theorem renameFS_inverse {oldP newP : FsPath} {fs fs2 : FS}
    (h : renameFS oldP newP fs = some fs2) : renameFS newP oldP fs2 = some fs := by
  unfold renameFS at h ⊢
  by_cases heq : oldP = newP
  · subst heq
    rw [if_pos rfl] at h ⊢
    by_cases hex : pathExistsB oldP fs = true
    · rw [if_pos hex] at h
      obtain rfl : fs = fs2 := Option.some_injective _ h
      rw [if_pos hex]
    · rw [if_neg hex] at h
      exact Option.noConfusion h
  · rw [if_neg heq] at h
    by_cases hc : (pathExistsB oldP fs && !(pathExistsB newP fs) &&
        !(oldP.isPrefixOf newP)) = true
    · rw [if_pos hc] at h
      obtain ⟨hc1, hnpre⟩ := Bool.and_eq_true_iff.mp hc
      obtain ⟨hex_old, hnex_new⟩ := Bool.and_eq_true_iff.mp hc1
      have hnex_new' : pathExistsB newP fs = false := eq_false_of_not_eq_true hnex_new
      have hnpre' : ¬ oldP <+: newP := fun hp => by
        rw [(List.isPrefixOf_iff_prefix).mpr hp] at hnpre
        exact Bool.noConfusion hnpre
      have hfs2 : fs2 = fs.map
          (fun q => if oldP.isPrefixOf q then newP ++ q.drop oldP.length else q) :=
        (Option.some_injective _ h).symm
      have hnprer : ¬ newP <+: oldP := by
        intro hp
        obtain ⟨q, hq, hpq⟩ := (pathExistsB_iff oldP fs).mp hex_old
        have : pathExistsB newP fs = true :=
          (pathExistsB_iff newP fs).mpr ⟨q, hq, hp.trans hpq⟩
        rw [this] at hnex_new'
        exact Bool.noConfusion hnex_new'
      have hnex_newfs : ∀ q ∈ fs, ¬ newP <+: q := by
        intro q hq hp
        have : pathExistsB newP fs = true := (pathExistsB_iff newP fs).mpr ⟨q, hq, hp⟩
        rw [this] at hnex_new'
        exact Bool.noConfusion hnex_new'
      rw [if_neg (fun he => heq he.symm)]
      have hex2 : pathExistsB newP fs2 = true := by
        obtain ⟨q, hq, hpq⟩ := (pathExistsB_iff oldP fs).mp hex_old
        refine (pathExistsB_iff newP fs2).mpr
          ⟨newP ++ q.drop oldP.length, ?_, List.prefix_append _ _⟩
        rw [hfs2]
        refine List.mem_map.mpr ⟨q, hq, ?_⟩
        rw [if_pos ((List.isPrefixOf_iff_prefix).mpr hpq)]
      have hnex2 : pathExistsB oldP fs2 = false := by
        rw [Bool.eq_false_iff]
        intro hex
        obtain ⟨q', hq', hpq'⟩ := (pathExistsB_iff oldP fs2).mp hex
        rw [hfs2] at hq'
        obtain ⟨q, hq, hmq⟩ := List.mem_map.mp hq'
        by_cases hpre : oldP.isPrefixOf q = true
        · rw [if_pos hpre] at hmq
          subst hmq
          by_cases hlen : oldP.length ≤ newP.length
          · exact hnpre' ((List.isPrefix_append_of_length hlen).mp hpq')
          · exact hnprer (List.prefix_of_prefix_length_le (List.prefix_append _ _)
              hpq' (by omega))
        · rw [if_neg hpre] at hmq
          subst hmq
          exact hpre ((List.isPrefixOf_iff_prefix).mpr hpq')
      have hcond2 : (pathExistsB newP fs2 && !(pathExistsB oldP fs2) &&
          !(newP.isPrefixOf oldP)) = true := by
        rw [hex2, hnex2]
        have : newP.isPrefixOf oldP = false := by
          rw [Bool.eq_false_iff]
          intro hp
          exact hnprer ((List.isPrefixOf_iff_prefix).mp hp)
        rw [this]
        rfl
      rw [if_pos hcond2]
      congr 1
      rw [hfs2, List.map_map]
      have hid : ∀ q ∈ fs, ((fun q =>
            if newP.isPrefixOf q then oldP ++ q.drop newP.length else q) ∘
          (fun q => if oldP.isPrefixOf q then newP ++ q.drop oldP.length else q)) q
          = q := by
        intro q hq
        simp only [Function.comp]
        by_cases hpre : oldP.isPrefixOf q = true
        · rw [if_pos hpre,
            if_pos ((List.isPrefixOf_iff_prefix).mpr (List.prefix_append _ _)),
            List.drop_left]
          exact append_drop_of_prefix ((List.isPrefixOf_iff_prefix).mp hpre)
        · rw [if_neg hpre]
          have : newP.isPrefixOf q = false := by
            rw [Bool.eq_false_iff]
            intro hp
            exact hnex_newfs q hq ((List.isPrefixOf_iff_prefix).mp hp)
          rw [this]
          rfl
      rw [List.map_congr_left hid]
      exact List.map_id' fs
    · rw [if_neg hc] at h
      exact Option.noConfusion h

theorem foldl_rename_log : ∀ (plan : List RenameItem) (fs : FS)
    (log0 : List (FsPath × FsPath)),
    (plan.foldl (fun st it => rename_entry it.1 it.2 false st) (fs, log0)).1 =
      (plan.foldl (fun st it => rename_entry it.1 it.2 false st) (fs, [])).1 ∧
    (plan.foldl (fun st it => rename_entry it.1 it.2 false st) (fs, log0)).2 =
      log0 ++ (plan.foldl (fun st it => rename_entry it.1 it.2 false st) (fs, [])).2
  | [], fs, log0 => ⟨rfl, by simp⟩
  | it :: rest, fs, log0 => by
    rw [List.foldl_cons, List.foldl_cons]
    show (rest.foldl _ (rename_entry it.1 it.2 false (fs, log0))).1 = _ ∧ _
    cases hrn : renameFS it.1 it.2 fs with
    | some fs1 =>
      have hstep : rename_entry it.1 it.2 false (fs, log0) =
          (fs1, log0 ++ [(it.2, it.1)]) := by
        unfold rename_entry
        rw [if_neg (by exact Bool.noConfusion)]
        simp only [hrn]
      have hstep0 : rename_entry it.1 it.2 false (fs, []) = (fs1, [(it.2, it.1)]) := by
        unfold rename_entry
        rw [if_neg (by exact Bool.noConfusion)]
        simp only [hrn, List.nil_append]
      rw [hstep, hstep0]
      have ih1 := foldl_rename_log rest fs1 (log0 ++ [(it.2, it.1)])
      have ih2 := foldl_rename_log rest fs1 [(it.2, it.1)]
      refine ⟨?_, ?_⟩
      · rw [ih1.1, ih2.1]
      · rw [ih1.2, ih2.2, List.append_assoc]
    | none =>
      have hstep : rename_entry it.1 it.2 false (fs, log0) = (fs, log0) := by
        unfold rename_entry
        rw [if_neg (by exact Bool.noConfusion)]
        simp only [hrn]
      have hstep0 : rename_entry it.1 it.2 false (fs, []) = (fs, []) := by
        unfold rename_entry
        rw [if_neg (by exact Bool.noConfusion)]
        simp only [hrn]
      rw [hstep, hstep0]
      exact foldl_rename_log rest fs log0

theorem undo_renames_eq_foldl (rename_log : List (FsPath × FsPath)) (fs : FS) :
    undo_renames rename_log fs =
      rename_log.reverse.foldl
        (fun f e =>
          match renameFS e.1 e.2 f with
          | some f2 => f2
          | none => f) fs := by
  unfold undo_renames
  by_cases h : rename_log = []
  · subst h
    rw [if_pos rfl]
    rfl
  · rw [if_neg h]

theorem executePlan_then_undo : ∀ (plan : List RenameItem) (fs : FS),
    (executePlan plan false fs).2.reverse.foldl
        (fun f e =>
          match renameFS e.1 e.2 f with
          | some f2 => f2
          | none => f) (executePlan plan false fs).1 = fs
  | [], fs => rfl
  | it :: rest, fs => by
    unfold executePlan
    rw [List.foldl_cons]
    cases hrn : renameFS it.1 it.2 fs with
    | some fs1 =>
      have hstep0 : rename_entry it.1 it.2 false (fs, []) = (fs1, [(it.2, it.1)]) := by
        unfold rename_entry
        rw [if_neg (by exact Bool.noConfusion)]
        simp only [hrn, List.nil_append]
      rw [hstep0]
      have hlog := foldl_rename_log rest fs1 [(it.2, it.1)]
      rw [hlog.1, hlog.2]
      have ih := executePlan_then_undo rest fs1
      rw [show ([(it.2, it.1)] ++
          (rest.foldl (fun st it => rename_entry it.1 it.2 false st) (fs1, [])).2) =
          (it.2, it.1) ::
          (rest.foldl (fun st it => rename_entry it.1 it.2 false st) (fs1, [])).2
        from rfl]
      rw [List.reverse_cons, List.foldl_append]
      unfold executePlan at ih
      rw [ih]
      show (match renameFS it.2 it.1 fs1 with
        | some f2 => f2
        | none => fs1) = fs
      rw [renameFS_inverse hrn]
    | none =>
      have hstep0 : rename_entry it.1 it.2 false (fs, []) = (fs, []) := by
        unfold rename_entry
        rw [if_neg (by exact Bool.noConfusion)]
        simp only [hrn]
      rw [hstep0]
      exact executePlan_then_undo rest fs

/-- C5: executing any plan for real (not simulating) and then undoing the
resulting log restores the filesystem exactly: every renamed entry is back
at its original path.  Items that fail (for example because two plan items
collide on a destination) are skipped by the executor without a log entry,
so the theorem needs no separate no-collision hypothesis: every logged
rename did succeed and is inverted by the reverse rename. -/
theorem C5_execute_then_undo_roundtrip (plan : List RenameItem) (fs : FS) :
    undo_renames (executePlan plan false fs).2 (executePlan plan false fs).1 = fs := by
  rw [undo_renames_eq_foldl]
  exact executePlan_then_undo plan fs

/-! Identity renames of already-normalized directories (claim C10). -/

theorem collect_renames_mono (e : FsTree) (rest : List FsTree) (p : FsPath)
    (it : RenameItem) (h : it ∈ collect_renames p rest) :
    it ∈ collect_renames p (e :: rest) := by
  cases e with
  | file n lnk =>
    rw [collect_renames, collectPair_file]
    by_cases hskip : (is_hidden (p ++ [n]) || lnk) = true
    · rw [if_pos hskip]
      exact h
    · rw [if_neg hskip]
      by_cases hsr : should_rename n = true
      · rw [if_pos hsr, List.cons_append]
        exact List.mem_cons_of_mem _ h
      · rw [if_neg hsr]
        exact h
  | dir n lnk ch =>
    rw [collect_renames, collectPair_dir]
    by_cases hskip : (is_hidden (p ++ [n]) || lnk) = true
    · rw [if_pos hskip]
      exact h
    · rw [if_neg hskip]
      rcases List.mem_append.mp h with h1 | h1
      · exact List.mem_append.mpr (Or.inl (List.mem_append.mpr (Or.inr h1)))
      · exact List.mem_append.mpr (Or.inr (List.mem_cons_of_mem _ h1))

/-- C10: a non-hidden, non-link directory is always scheduled, so when its
name is already in normalized form the plan contains an item whose new
path equals its old path; the executor still performs that rename (an
os.rename of a path to itself, which succeeds and changes nothing) and
appends the identity pair (x, x) to the log; undo later replays such an
entry as a rename of the path to itself, again changing nothing. -/
theorem C10_identity_renames :
    (∀ (p : FsPath) (es : List FsTree) (n : String) (ch : List FsTree),
      FsTree.dir n false ch ∈ es → hiddenName n = false → get_new_name n = n →
      (p ++ [n], p ++ [n]) ∈ collect_renames p es) ∧
    (∀ (fs : FS) (rename_log : List (FsPath × FsPath)) (x : FsPath),
      pathExistsB x fs = true →
      rename_entry x x false (fs, rename_log) = (fs, rename_log ++ [(x, x)])) ∧
    (∀ (fs : FS) (x : FsPath), pathExistsB x fs = true →
      undo_renames [(x, x)] fs = fs) := by
  refine ⟨?_, ?_, ?_⟩
  · intro p es n ch hmem hnh hnn
    induction es with
    | nil => exact absurd hmem (List.not_mem_nil _)
    | cons e rest ih =>
      rcases List.mem_cons.mp hmem with h1 | h1
      · subst h1
        rw [collect_renames, collectPair_dir]
        have hskip : (is_hidden (p ++ [n]) || false) = false := by
          rw [is_hidden_append, hnh]
          rfl
        rw [if_neg (by rw [hskip]; exact Bool.noConfusion)]
        refine List.mem_append.mpr (Or.inr ?_)
        rw [hnn]
        exact List.mem_cons_self _ _
      · exact collect_renames_mono e rest p _ (ih h1)
  · intro fs rename_log x hex
    unfold rename_entry renameFS
    rw [if_neg (by exact Bool.noConfusion), if_pos rfl, if_pos hex]
  · intro fs x hex
    unfold undo_renames
    rw [if_neg (by exact List.cons_ne_nil _ _)]
    show (match renameFS x x fs with
      | some f2 => f2
      | none => fs) = fs
    unfold renameFS
    rw [if_pos rfl, if_pos hex]

/-- Witness for C10 on the concrete tree root/"abc" (a directory already
in normalized form) and the filesystem state holding ["r", "abc"]. -/
theorem C10_witness :
    ((["r", "abc"], ["r", "abc"]) : RenameItem) ∈
      collect_renames ["r"] [FsTree.dir "abc" false []] ∧
    rename_entry ["r", "abc"] ["r", "abc"] false ([["r", "abc"]], []) =
      ([["r", "abc"]], [(["r", "abc"], ["r", "abc"])]) ∧
    undo_renames [(["r", "abc"], ["r", "abc"])] [["r", "abc"]] = [["r", "abc"]] :=
  ⟨C10_identity_renames.1 ["r"] [FsTree.dir "abc" false []] "abc" []
      (List.mem_cons_self _ _) (by decide) (by decide),
   C10_identity_renames.2.1 [["r", "abc"]] [] ["r", "abc"] (by decide),
   C10_identity_renames.2.2 [["r", "abc"]] ["r", "abc"] (by decide)⟩
